import Mathlib

/-!
Shallow embedding of the tool-execution and turn-accounting core of the
repository (codex-rs): the per-path `IntervalSet` code-range ledger, the
per-turn `ToolOutputBudget`, the `RepeatCommandBreaker`, the exec output
classification of `process_exec_tool_call`, the stream capper `read_capped`,
and the `read_code` content builder `build_content`, together with proofs of
the specified properties.

Modelling conventions:
* `usize` values are represented as `Nat`.  Where the source explicitly uses
  `saturating_add` / `saturating_sub` we model them exactly (`satAdd` below;
  `Nat` subtraction is exactly `usize::saturating_sub`).  Plain `+` on sizes
  of in-memory byte buffers is modelled as exact `Nat` addition: Rust
  guarantees allocations are at most `isize::MAX` bytes, so those additions
  cannot overflow.
* Wall-clock time (`Instant`) is modelled as a `Nat` number of seconds;
  `Instant::saturating_duration_since` is `Nat` subtraction and `Duration`
  comparison is `Nat` comparison.
* Byte strings are `List Nat` (one `Nat` per byte).
-/

namespace Codex

/-- `usize::MAX` on the 64-bit targets the code runs on. -/
def USIZE_MAX : Nat := 2 ^ 64 - 1

/-- `usize::saturating_add`. -/
def satAdd (a b : Nat) : Nat := min (a + b) USIZE_MAX

theorem satAdd_eq_add {a b : Nat} (h : a + b ≤ USIZE_MAX) : satAdd a b = a + b := by
  simp [satAdd, Nat.min_eq_left h]

theorem le_satAdd {a : Nat} (b : Nat) (h : a ≤ USIZE_MAX) : a ≤ satAdd a b := by
  simp only [satAdd]
  omega

theorem satAdd_le {a b : Nat} : satAdd a b ≤ USIZE_MAX := by
  simp only [satAdd]; omega

/-! ## IntervalSet (src/codex-rs/core/src/state/turn.rs lines 213-295;
an identical copy lives in src/codex-rs/core/src/state/session.rs lines 170-252) -/

/-- The stored interval list of `IntervalSet { intervals: Vec<(usize, usize)> }`. -/
abbrev IntervalSet : Type := List (Nat × Nat)

/-- The scanning loop of `IntervalSet::subtract` (turn.rs lines 228-256): walk the
stored intervals with a `cursor`, accumulating `uncovered` gaps.  The early
`return uncovered` when the advanced cursor passes `end` is the branch that
skips the post-loop push. -/
def subtractGo (e : Nat) : List (Nat × Nat) → Nat → List (Nat × Nat) → List (Nat × Nat)
  | [], cursor, acc => if cursor ≤ e then acc ++ [(cursor, e)] else acc
  | (lo, hi) :: rest, cursor, acc =>
    if hi < cursor then subtractGo e rest cursor acc
    else if e < lo then (if cursor ≤ e then acc ++ [(cursor, e)] else acc)
    else
      let acc2 := if cursor < lo ∧ cursor ≤ min (lo - 1) e then acc ++ [(cursor, min (lo - 1) e)] else acc
      let cursor2 := satAdd hi 1
      if e < cursor2 then acc2 else subtractGo e rest cursor2 acc2

/-- `IntervalSet::subtract` (turn.rs lines 219-257). -/
def IntervalSet.subtract (l : IntervalSet) (s e : Nat) : List (Nat × Nat) :=
  if s = 0 ∨ e = 0 ∨ e < s then []
  else if l = [] then [(s, e)]
  else subtractGo e l s []

/-- The loop of `IntervalSet::insert` (turn.rs lines 269-287): fold each stored
interval into `merged`, keeping intervals strictly left of the growing new
interval, emitting the new interval before the first interval strictly right
of it, and absorbing everything that touches `[new_start-1, new_end+1]`. -/
def insertLoop : List (Nat × Nat) → Nat → Nat → Bool → List (Nat × Nat) →
    Nat × Nat × Bool × List (Nat × Nat)
  | [], ns, ne, inserted, merged => (ns, ne, inserted, merged)
  | (lo, hi) :: rest, ns, ne, inserted, merged =>
    if satAdd hi 1 < ns then insertLoop rest ns ne inserted (merged ++ [(lo, hi)])
    else if satAdd ne 1 < lo then
      insertLoop rest ns ne true ((if inserted then merged else merged ++ [(ns, ne)]) ++ [(lo, hi)])
    else insertLoop rest (min ns lo) (max ne hi) inserted merged

/-- The post-loop push of `IntervalSet::insert` (turn.rs lines 288-290). -/
def finalizeInsert : Nat × Nat × Bool × List (Nat × Nat) → List (Nat × Nat)
  | (ns, ne, inserted, merged) => if inserted then merged else merged ++ [(ns, ne)]

/-- One step of a stable insertion sort on the `lo` key. -/
def insSortedByLo (x : Nat × Nat) : List (Nat × Nat) → List (Nat × Nat)
  | [] => [x]
  | y :: ys => if x.1 ≤ y.1 then x :: y :: ys else y :: insSortedByLo x ys

/-- Stable sort by the `lo` key, modelling `merged.sort_by_key(|(lo, _)| *lo)`
(Rust's `sort_by_key` is a stable sort; stable sorting by a key is a unique
function of the input list, here realised as insertion sort). -/
def sortByLo : List (Nat × Nat) → List (Nat × Nat)
  | [] => []
  | x :: xs => insSortedByLo x (sortByLo xs)

/-- `IntervalSet::insert` (turn.rs lines 259-294). -/
def IntervalSet.insert (l : IntervalSet) (s e : Nat) : IntervalSet :=
  if s = 0 ∨ e = 0 ∨ e < s then l
  else sortByLo (finalizeInsert (insertLoop l s e false []))

/-! ## Well-formedness of an interval list -/

/-- Gap of at least two to the head of the following list: for consecutive
pairs `(a,b),(c,d)` the invariant is `c > b + 1`. -/
def gapTo (b : Nat) : List (Nat × Nat) → Bool
  | [] => true
  | (lo, _) :: _ => decide (b + 1 < lo)

/-- The `IntervalSet` invariant: pairs `(lo, hi)` with `1 ≤ lo ≤ hi ≤ usize::MAX`,
sorted by `lo`, non-overlapping, with a gap of at least two between consecutive
intervals. -/
def WFb : List (Nat × Nat) → Bool
  | [] => true
  | (lo, hi) :: rest =>
    decide (1 ≤ lo) && decide (lo ≤ hi) && decide (hi ≤ USIZE_MAX) && gapTo hi rest && WFb rest

/-- Strictly-ascending head bound for `ordAsc`. -/
def ascTo (b : Nat) : List (Nat × Nat) → Bool
  | [] => true
  | (lo, _) :: _ => decide (b < lo)

/-- Pairwise-disjoint, valid, ascending interval list. -/
def ordAsc : List (Nat × Nat) → Bool
  | [] => true
  | (lo, hi) :: rest => decide (lo ≤ hi) && ascTo hi rest && ordAsc rest

/-- A point `x` is covered by some interval of the list. -/
def Covers (l : List (Nat × Nat)) (x : Nat) : Prop := ∃ p ∈ l, p.1 ≤ x ∧ x ≤ p.2

instance (l : List (Nat × Nat)) (x : Nat) : Decidable (Covers l x) :=
  inferInstanceAs (Decidable (∃ p ∈ l, p.1 ≤ x ∧ x ≤ p.2))

theorem Covers_nil (x : Nat) : Covers [] x ↔ False := by simp [Covers]

theorem Covers_cons {p : Nat × Nat} {l : List (Nat × Nat)} {x : Nat} :
    Covers (p :: l) x ↔ (p.1 ≤ x ∧ x ≤ p.2) ∨ Covers l x := by
  simp [Covers]

theorem Covers_append {l₁ l₂ : List (Nat × Nat)} {x : Nat} :
    Covers (l₁ ++ l₂) x ↔ Covers l₁ x ∨ Covers l₂ x := by
  simp [Covers, or_and_right, exists_or]

theorem Covers_singleton {a b x : Nat} : Covers [(a, b)] x ↔ a ≤ x ∧ x ≤ b := by
  simp [Covers]

theorem gap_wf_above :
    ∀ (l : List (Nat × Nat)) (b : Nat), gapTo b l = true → WFb l = true →
      ∀ p ∈ l, b + 1 < p.1 := by
  intro l
  induction l with
  | nil => intro b _ _ p hp; cases hp
  | cons q rest ih =>
    obtain ⟨lo, hi⟩ := q
    intro b hg hwf p hp
    simp only [gapTo, decide_eq_true_eq] at hg
    simp only [WFb, Bool.and_eq_true, decide_eq_true_eq] at hwf
    obtain ⟨⟨⟨⟨_, hlohi⟩, _⟩, hgap⟩, hwfr⟩ := hwf
    rw [List.mem_cons] at hp
    rcases hp with hp | hp
    · subst hp; exact hg
    · have := ih hi hgap hwfr p hp
      omega

theorem subtractGo_acc (e : Nat) :
    ∀ (l : List (Nat × Nat)) (c : Nat) (acc : List (Nat × Nat)),
      subtractGo e l c acc = acc ++ subtractGo e l c [] := by
  intro l
  induction l with
  | nil =>
    intro c acc
    simp only [subtractGo]
    split <;> simp
  | cons p rest ih =>
    obtain ⟨lo, hi⟩ := p
    intro c acc
    simp only [subtractGo]
    split
    · exact ih c acc
    · split
      · split <;> simp
      · split
        · split <;> simp
        · split
          · rw [ih _ (acc ++ _)]
            conv_rhs => rw [ih]
            simp
          · exact ih _ acc

theorem subtractGo_spec (e : Nat) (he : e < USIZE_MAX) :
    ∀ (l : List (Nat × Nat)) (c : Nat), WFb l = true → 1 ≤ c → c ≤ e →
      (∀ x, Covers (subtractGo e l c []) x ↔ (c ≤ x ∧ x ≤ e ∧ ¬ Covers l x))
      ∧ ordAsc (subtractGo e l c []) = true
      ∧ (∀ p ∈ subtractGo e l c [], c ≤ p.1 ∧ p.1 ≤ p.2 ∧ p.2 ≤ e) := by
  intro l
  induction l with
  | nil =>
    intro c _ h1 h2
    have hres : subtractGo e [] c [] = [(c, e)] := by simp [subtractGo, h2]
    rw [hres]
    refine ⟨?_, ?_, ?_⟩
    · intro x
      rw [Covers_singleton, Covers_nil]
      tauto
    · simp [ordAsc, ascTo, h2]
    · intro p hp
      simp only [List.mem_singleton] at hp
      subst hp
      exact ⟨le_refl _, h2, le_refl _⟩
  | cons q rest ih =>
    obtain ⟨lo, hi⟩ := q
    intro c hwf h1 h2
    simp only [WFb, Bool.and_eq_true, decide_eq_true_eq] at hwf
    obtain ⟨⟨⟨⟨hlo1, hlohi⟩, hhiM⟩, hgapT⟩, hwfr⟩ := hwf
    have habove : ∀ p ∈ rest, hi + 1 < p.1 := gap_wf_above rest hi hgapT hwfr
    by_cases hc1 : hi < c
    · have hres : subtractGo e ((lo, hi) :: rest) c [] = subtractGo e rest c [] := by
        simp [subtractGo, hc1]
      obtain ⟨q1, q2, q3⟩ := ih c hwfr h1 h2
      rw [hres]
      refine ⟨?_, q2, q3⟩
      intro x
      rw [q1 x, Covers_cons]
      constructor
      · rintro ⟨hcx, hxe, hnr⟩
        refine ⟨hcx, hxe, ?_⟩
        rintro (⟨hx1, hx2⟩ | hr)
        · omega
        · exact hnr hr
      · rintro ⟨hcx, hxe, hnc⟩
        exact ⟨hcx, hxe, fun hr => hnc (Or.inr hr)⟩
    · by_cases hc2 : e < lo
      · have hres : subtractGo e ((lo, hi) :: rest) c [] = [(c, e)] := by
          simp [subtractGo, hc1, hc2, h2]
        rw [hres]
        refine ⟨?_, ?_, ?_⟩
        · intro x
          rw [Covers_singleton, Covers_cons]
          constructor
          · rintro ⟨hcx, hxe⟩
            refine ⟨hcx, hxe, ?_⟩
            rintro (⟨hx1, hx2⟩ | hr)
            · omega
            · obtain ⟨p, hp, hpx1, hpx2⟩ := hr
              have := habove p hp
              omega
          · rintro ⟨hcx, hxe, _⟩
            exact ⟨hcx, hxe⟩
        · simp [ordAsc, ascTo, h2]
        · intro p hp
          simp only [List.mem_singleton] at hp
          subst hp
          exact ⟨le_refl _, h2, le_refl _⟩
      · -- main branch: lo ≤ e and c ≤ hi
        have hloe : lo ≤ e := Nat.le_of_not_lt hc2
        have hchi : c ≤ hi := Nat.le_of_not_lt hc1
        have hgap_iff : (c < lo ∧ c ≤ min (lo - 1) e) ↔ c < lo := by omega
        by_cases hor : e < satAdd hi 1
        · have hehi : e ≤ hi := by
            simp only [satAdd] at hor
            omega
          have hres : subtractGo e ((lo, hi) :: rest) c [] =
              (if c < lo then [(c, min (lo - 1) e)] else []) := by
            simp only [subtractGo, if_neg hc1, if_neg hc2, if_pos hor]
            by_cases hcl : c < lo
            · rw [if_pos (hgap_iff.mpr hcl), if_pos hcl]
              simp
            · rw [if_neg (fun h => hcl (hgap_iff.mp h)), if_neg hcl]
          rw [hres]
          refine ⟨?_, ?_, ?_⟩
          · intro x
            by_cases hcl : c < lo
            · rw [if_pos hcl, Covers_singleton, Covers_cons]
              constructor
              · rintro ⟨hcx, hxg⟩
                refine ⟨hcx, by omega, ?_⟩
                rintro (⟨hx1, hx2⟩ | hr)
                · omega
                · obtain ⟨p, hp, hpx1, hpx2⟩ := hr
                  have := habove p hp
                  omega
              · rintro ⟨hcx, hxe, hnc⟩
                have hnh : ¬(lo ≤ x ∧ x ≤ hi) := fun h => hnc (Or.inl h)
                exact ⟨hcx, by omega⟩
            · rw [if_neg hcl, Covers_nil, Covers_cons]
              constructor
              · exact fun h => h.elim
              · rintro ⟨hcx, hxe, hnc⟩
                exact hnc (Or.inl (by omega))
          · by_cases hcl : c < lo
            · rw [if_pos hcl]
              simp [ordAsc, ascTo]
              omega
            · rw [if_neg hcl]
              simp [ordAsc]
          · intro p hp
            by_cases hcl : c < lo
            · rw [if_pos hcl] at hp
              simp only [List.mem_singleton] at hp
              subst hp
              refine ⟨le_refl _, by omega, by omega⟩
            · rw [if_neg hcl] at hp
              cases hp
        · -- recurse with cursor hi + 1
          have hsat : satAdd hi 1 = hi + 1 := by
            simp only [satAdd] at hor ⊢
            omega
          have hhe : hi + 1 ≤ e := by
            rw [hsat] at hor
            omega
          obtain ⟨q1, q2, q3⟩ := ih (hi + 1) hwfr (by omega) hhe
          have hres : subtractGo e ((lo, hi) :: rest) c [] =
              (if c < lo then [(c, min (lo - 1) e)] else []) ++ subtractGo e rest (hi + 1) [] := by
            simp only [subtractGo, if_neg hc1, if_neg hc2, hsat, if_neg (not_lt.mpr hhe)]
            by_cases hcl : c < lo
            · rw [if_pos (hgap_iff.mpr hcl), if_pos hcl, subtractGo_acc]
              simp
            · rw [if_neg (fun h => hcl (hgap_iff.mp h)), if_neg hcl]
              simp
          rw [hres]
          refine ⟨?_, ?_, ?_⟩
          · intro x
            rw [Covers_append, Covers_cons, q1 x]
            have hgapc : Covers (if c < lo then [(c, min (lo - 1) e)] else []) x ↔
                (c < lo ∧ c ≤ x ∧ x ≤ min (lo - 1) e) := by
              by_cases hcl : c < lo
              · rw [if_pos hcl, Covers_singleton]
                tauto
              · rw [if_neg hcl, Covers_nil]
                tauto
            rw [hgapc]
            constructor
            · rintro (⟨hcl, hcx, hxg⟩ | ⟨hhx, hxe, hnr⟩)
              · refine ⟨hcx, by omega, ?_⟩
                rintro (⟨hx1, hx2⟩ | hr)
                · omega
                · obtain ⟨p, hp, hpx1, hpx2⟩ := hr
                  have := habove p hp
                  omega
              · refine ⟨by omega, hxe, ?_⟩
                rintro (⟨hx1, hx2⟩ | hr)
                · omega
                · exact hnr hr
            · rintro ⟨hcx, hxe, hnc⟩
              have hnh : ¬(lo ≤ x ∧ x ≤ hi) := fun h => hnc (Or.inl h)
              have hnr : ¬ Covers rest x := fun h => hnc (Or.inr h)
              by_cases hxlo : x < lo
              · exact Or.inl ⟨by omega, hcx, by omega⟩
              · exact Or.inr ⟨by omega, hxe, hnr⟩
          · by_cases hcl : c < lo
            · rw [if_pos hcl]
              have hhead : ascTo (min (lo - 1) e) (subtractGo e rest (hi + 1) []) = true := by
                cases hsg : subtractGo e rest (hi + 1) [] with
                | nil => simp [ascTo]
                | cons r rs =>
                  have hr := q3 r (by rw [hsg]; exact List.mem_cons_self _ _)
                  simp only [ascTo, decide_eq_true_eq]
                  omega
              simp only [List.singleton_append, ordAsc, Bool.and_eq_true, decide_eq_true_eq]
              exact ⟨⟨by omega, hhead⟩, q2⟩
            · rw [if_neg hcl]
              simpa using q2
          · intro p hp
            rw [List.mem_append] at hp
            rcases hp with hp | hp
            · by_cases hcl : c < lo
              · rw [if_pos hcl] at hp
                simp only [List.mem_singleton] at hp
                subst hp
                exact ⟨le_refl _, by omega, by omega⟩
              · rw [if_neg hcl] at hp
                cases hp
            · have := q3 p hp
              exact ⟨by omega, this.2.1, this.2.2⟩

theorem WFb_append :
    ∀ (xs ys : List (Nat × Nat)), WFb xs = true → WFb ys = true →
      (∀ p ∈ xs, ∀ q ∈ ys, p.2 + 1 < q.1) → WFb (xs ++ ys) = true := by
  intro xs
  induction xs with
  | nil => intro ys _ hys _; simpa using hys
  | cons x xs ih =>
    intro ys hx hys hlink
    simp only [WFb, Bool.and_eq_true, decide_eq_true_eq] at hx
    obtain ⟨⟨⟨⟨h1, h2⟩, h3⟩, h4⟩, h5⟩ := hx
    simp only [List.cons_append, WFb, Bool.and_eq_true, decide_eq_true_eq]
    refine ⟨⟨⟨⟨h1, h2⟩, h3⟩, ?_⟩,
      ih ys h5 hys (fun p hp q hq => hlink p (List.mem_cons_of_mem _ hp) q hq)⟩
    cases xs with
    | nil =>
      cases ys with
      | nil => simp [gapTo]
      | cons y ys' =>
        have := hlink x (List.mem_cons_self _ _) y (List.mem_cons_self _ _)
        show gapTo x.2 (y :: ys') = true
        simp only [gapTo, decide_eq_true_eq]
        omega
    | cons z zs =>
      simp only [gapTo] at h4 ⊢
      exact h4

theorem WFb_tail {x : Nat × Nat} {xs : List (Nat × Nat)} (h : WFb (x :: xs) = true) :
    WFb xs = true := by
  simp only [WFb, Bool.and_eq_true] at h
  exact h.2

theorem sortByLo_wf_id : ∀ (l : List (Nat × Nat)), WFb l = true → sortByLo l = l := by
  intro l
  induction l with
  | nil => intro _; simp [sortByLo]
  | cons x xs ih =>
    intro hwf
    simp only [sortByLo]
    rw [ih (WFb_tail hwf)]
    cases xs with
    | nil => simp [insSortedByLo]
    | cons y ys =>
      have hxy : x.1 ≤ y.1 := by
        simp only [WFb, gapTo, Bool.and_eq_true, decide_eq_true_eq] at hwf
        obtain ⟨⟨⟨⟨_, hx12⟩, _⟩, hg⟩, _⟩ := hwf
        omega
      simp [insSortedByLo, hxy]

theorem insertLoop_phase2 :
    ∀ (l : List (Nat × Nat)) (ns ne : Nat) (merged : List (Nat × Nat)),
      WFb l = true → ns ≤ ne → ne ≤ USIZE_MAX → (∀ p ∈ l, satAdd ne 1 < p.1) →
      insertLoop l ns ne true merged = (ns, ne, true, merged ++ l) := by
  intro l
  induction l with
  | nil => intro ns ne merged _ _ _ _; simp [insertLoop]
  | cons q rest ih =>
    obtain ⟨lo, hi⟩ := q
    intro ns ne merged hwf hnsne hneM hp
    simp only [WFb, Bool.and_eq_true, decide_eq_true_eq] at hwf
    obtain ⟨⟨⟨⟨hlo1, hlohi⟩, hhiM⟩, hgapT⟩, hwfr⟩ := hwf
    have hplo : satAdd ne 1 < lo := hp (lo, hi) (List.mem_cons_self _ _)
    have h1 : ¬ satAdd hi 1 < ns := by
      have ha := le_satAdd 1 hhiM
      have hb := le_satAdd 1 hneM
      omega
    simp only [insertLoop, if_neg h1, if_pos hplo, if_true]
    rw [ih ns ne (merged ++ [(lo, hi)]) hwfr hnsne hneM
      (fun p hp' => hp p (List.mem_cons_of_mem _ hp'))]
    simp

theorem insertLoop_wf :
    ∀ (l : List (Nat × Nat)) (ns ne : Nat) (merged : List (Nat × Nat)),
      WFb l = true → 1 ≤ ns → ns ≤ ne → ne ≤ USIZE_MAX →
      WFb merged = true →
      (∀ p ∈ merged, p.2 + 1 < ns) →
      (∀ p ∈ merged, ∀ q ∈ l, p.2 + 1 < q.1) →
      WFb (finalizeInsert (insertLoop l ns ne false merged)) = true := by
  intro l
  induction l with
  | nil =>
    intro ns ne merged _ hns1 hnsne hneM hM hgap _
    simp only [insertLoop, finalizeInsert, Bool.false_eq_true, if_false]
    refine WFb_append merged [(ns, ne)] hM ?_ ?_
    · simp only [WFb, gapTo, Bool.and_eq_true, decide_eq_true_eq]
      simp only [Bool.true_and, Bool.and_true, and_true, true_and]
      omega
    · intro p hp q hq
      simp only [List.mem_singleton] at hq
      subst hq
      exact hgap p hp
  | cons q rest ih =>
    obtain ⟨lo, hi⟩ := q
    intro ns ne merged hwf hns1 hnsne hneM hM hgap hgapL
    simp only [WFb, Bool.and_eq_true, decide_eq_true_eq] at hwf
    obtain ⟨⟨⟨⟨hlo1, hlohi⟩, hhiM⟩, hgapT⟩, hwfr⟩ := hwf
    have habove : ∀ p ∈ rest, hi + 1 < p.1 := gap_wf_above rest hi hgapT hwfr
    by_cases hb1 : satAdd hi 1 < ns
    · have hi1ns : hi + 1 < ns := by
        simp only [satAdd] at hb1
        omega
      simp only [insertLoop, if_pos hb1]
      refine ih ns ne (merged ++ [(lo, hi)]) hwfr hns1 hnsne hneM ?_ ?_ ?_
      · refine WFb_append merged [(lo, hi)] hM ?_ ?_
        · simp only [WFb, gapTo, Bool.and_eq_true, decide_eq_true_eq]
          simp only [Bool.true_and, Bool.and_true, and_true, true_and]
          omega
        · intro p hp q hq
          simp only [List.mem_singleton] at hq
          subst hq
          exact hgapL p hp (lo, hi) (List.mem_cons_self _ _)
      · intro p hp
        rw [List.mem_append] at hp
        rcases hp with hp | hp
        · exact hgap p hp
        · simp only [List.mem_singleton] at hp
          subst hp
          exact hi1ns
      · intro p hp q hq
        rw [List.mem_append] at hp
        rcases hp with hp | hp
        · exact hgapL p hp q (List.mem_cons_of_mem _ hq)
        · simp only [List.mem_singleton] at hp
          subst hp
          exact habove q hq
    · by_cases hb2 : satAdd ne 1 < lo
      · have hne1lo : ne + 1 < lo := by
          simp only [satAdd] at hb2
          omega
        simp only [insertLoop, if_neg hb1, if_pos hb2, Bool.false_eq_true, if_false]
        rw [insertLoop_phase2 rest ns ne _ hwfr hnsne hneM
          (fun p hp' => by
            have := habove p hp'
            omega)]
        simp only [finalizeInsert, if_true]
        have hshape : ((merged ++ [(ns, ne)]) ++ [(lo, hi)]) ++ rest
            = merged ++ ((ns, ne) :: (lo, hi) :: rest) := by
          simp
        rw [hshape]
        refine WFb_append merged ((ns, ne) :: (lo, hi) :: rest) hM ?_ ?_
        · simp only [WFb, gapTo, Bool.and_eq_true, decide_eq_true_eq]
          exact ⟨⟨⟨⟨hns1, hnsne⟩, hneM⟩, hne1lo⟩,
            ⟨⟨⟨⟨hlo1, hlohi⟩, hhiM⟩, hgapT⟩, hwfr⟩⟩
        · intro p hp q hq
          rw [List.mem_cons] at hq
          rcases hq with hq | hq
          · subst hq
            exact hgap p hp
          · exact hgapL p hp q hq
      · simp only [insertLoop, if_neg hb1, if_neg hb2]
        refine ih (min ns lo) (max ne hi) merged hwfr (by omega) (by omega) (by omega) hM ?_ ?_
        · intro p hp
          have h1 := hgap p hp
          have h2 := hgapL p hp (lo, hi) (List.mem_cons_self _ _)
          simp only at h2
          omega
        · intro p hp q hq
          exact hgapL p hp q (List.mem_cons_of_mem _ hq)

theorem insert_wf (l : IntervalSet) (s e : Nat) (hwf : WFb l = true)
    (h1 : 1 ≤ s) (h2 : s ≤ e) (h3 : e ≤ USIZE_MAX) :
    WFb (IntervalSet.insert l s e) = true := by
  unfold IntervalSet.insert
  rw [if_neg (by omega)]
  have h := insertLoop_wf l s e [] hwf h1 h2 h3 (by simp [WFb]) (by simp) (by simp)
  rw [sortByLo_wf_id _ h]
  exact h

/-- Fold a sequence of `insert(start, end)` calls, starting from the empty set. -/
def insertAll (ops : List (Nat × Nat)) : IntervalSet :=
  ops.foldl (fun l p => IntervalSet.insert l p.1 p.2) []

theorem insertAll_go_wf :
    ∀ (ops : List (Nat × Nat)) (acc : IntervalSet), WFb acc = true →
      (∀ p ∈ ops, p.1 ≤ USIZE_MAX ∧ p.2 ≤ USIZE_MAX) →
      WFb (ops.foldl (fun l p => IntervalSet.insert l p.1 p.2) acc) = true := by
  intro ops
  induction ops with
  | nil => intro acc hacc _; simpa using hacc
  | cons p rest ih =>
    intro acc hacc hb
    simp only [List.foldl_cons]
    refine ih _ ?_ (fun q hq => hb q (List.mem_cons_of_mem _ hq))
    by_cases hv : p.1 = 0 ∨ p.2 = 0 ∨ p.2 < p.1
    · rw [show IntervalSet.insert acc p.1 p.2 = acc by
        unfold IntervalSet.insert; rw [if_pos hv]]
      exact hacc
    · have := hb p (List.mem_cons_self _ _)
      exact insert_wf acc p.1 p.2 hacc (by omega) (by omega) this.2

/-- Claim C3, amended: for a well-formed `IntervalSet` and a query with
`end < usize::MAX`, `subtract(start, end)` returns the empty list on an invalid
query (`start == 0 || end == 0 || start > end`), returns `[(start, end)]` on an
empty set, and otherwise returns pairwise-disjoint ranges in ascending order
whose union is exactly `[start, end]` minus the union of the stored intervals.
(The restriction `end < usize::MAX` is forced by the saturating cursor
arithmetic, see the counterexample.) -/
theorem C3_subtract_law (l : IntervalSet) (s e : Nat) (hwf : WFb l = true)
    (hs : 1 ≤ s) (hse : s ≤ e) (he : e < USIZE_MAX) :
    (∀ s' e', s' = 0 ∨ e' = 0 ∨ e' < s' → IntervalSet.subtract l s' e' = [])
    ∧ (l = [] → IntervalSet.subtract l s e = [(s, e)])
    ∧ (∀ x, Covers (IntervalSet.subtract l s e) x ↔ (s ≤ x ∧ x ≤ e ∧ ¬ Covers l x))
    ∧ ordAsc (IntervalSet.subtract l s e) = true := by
  refine ⟨?_, ?_, ?_, ?_⟩
  · intro s' e' h
    unfold IntervalSet.subtract
    rw [if_pos h]
  · intro h
    subst h
    unfold IntervalSet.subtract
    rw [if_neg (by omega), if_pos rfl]
  · cases l with
    | nil =>
      intro x
      unfold IntervalSet.subtract
      rw [if_neg (by omega), if_pos rfl, Covers_singleton, Covers_nil]
      tauto
    | cons p t =>
      have hres : IntervalSet.subtract (p :: t) s e = subtractGo e (p :: t) s [] := by
        unfold IntervalSet.subtract
        rw [if_neg (by omega), if_neg (by simp)]
      rw [hres]
      exact (subtractGo_spec e he (p :: t) s hwf hs hse).1
  · cases l with
    | nil =>
      unfold IntervalSet.subtract
      rw [if_neg (by omega), if_pos rfl]
      simp [ordAsc, ascTo, hse]
    | cons p t =>
      have hres : IntervalSet.subtract (p :: t) s e = subtractGo e (p :: t) s [] := by
        unfold IntervalSet.subtract
        rw [if_neg (by omega), if_neg (by simp)]
      rw [hres]
      exact (subtractGo_spec e he (p :: t) s hwf hs hse).2.1

/-- Witness for C3 at a concrete well-formed set and query. -/
theorem C3_subtract_law_witness :
    WFb [(2, 3)] = true ∧ ordAsc (IntervalSet.subtract [(2, 3)] 1 5) = true :=
  ⟨by decide,
    (C3_subtract_law [(2, 3)] 1 5 (by decide) (by decide) (by decide) (by decide)).2.2.2⟩

/-- Claim C3 counterexample: the set `[(usize::MAX, usize::MAX)]` is reachable by
`insert(usize::MAX, usize::MAX)` from the empty set, yet
`subtract(usize::MAX, usize::MAX)` returns `[(usize::MAX, usize::MAX)]` even
though the point `usize::MAX` is covered by the stored interval — the claimed
union law fails because `hi.saturating_add(1)` saturates at `usize::MAX` and the
cursor never passes `end`. -/
theorem C3_counterexample :
    IntervalSet.insert [] USIZE_MAX USIZE_MAX = [(USIZE_MAX, USIZE_MAX)]
    ∧ IntervalSet.subtract [(USIZE_MAX, USIZE_MAX)] USIZE_MAX USIZE_MAX
        = [(USIZE_MAX, USIZE_MAX)]
    ∧ Covers [(USIZE_MAX, USIZE_MAX)] USIZE_MAX
    ∧ ¬ (∀ x, Covers (IntervalSet.subtract [(USIZE_MAX, USIZE_MAX)] USIZE_MAX USIZE_MAX) x ↔
          (USIZE_MAX ≤ x ∧ x ≤ USIZE_MAX ∧ ¬ Covers [(USIZE_MAX, USIZE_MAX)] x)) := by
  refine ⟨by decide, by decide, by decide, ?_⟩
  intro h
  have := (h USIZE_MAX).1 (by decide)
  exact this.2.2 (by decide)

/-- Claim C4: invalid inserts (`start == 0 || end == 0 || start > end`) leave the
set unchanged, and after any sequence of `insert` calls on usize arguments
starting from the empty set the stored list is sorted by `lo`, non-overlapping,
with `c > b + 1` for consecutive pairs `(a,b), (c,d)` — i.e. it satisfies `WFb`. -/
theorem C4_insert_invariant :
    (∀ (l : IntervalSet) (s e : Nat), s = 0 ∨ e = 0 ∨ e < s → IntervalSet.insert l s e = l)
    ∧ ∀ (ops : List (Nat × Nat)), (∀ p ∈ ops, p.1 ≤ USIZE_MAX ∧ p.2 ≤ USIZE_MAX) →
        WFb (insertAll ops) = true := by
  refine ⟨?_, ?_⟩
  · intro l s e h
    unfold IntervalSet.insert
    rw [if_pos h]
  · intro ops hb
    exact insertAll_go_wf ops [] (by simp [WFb]) hb

/-- Witness for C4 at a concrete operation sequence (including an invalid call). -/
theorem C4_insert_invariant_witness :
    IntervalSet.insert [] 0 5 = [] ∧ WFb (insertAll [(5, 10), (1, 2), (11, 14), (3, 0)]) = true :=
  ⟨C4_insert_invariant.1 [] 0 5 (Or.inl rfl),
    C4_insert_invariant.2 [(5, 10), (1, 2), (11, 14), (3, 0)] (by decide)⟩

/-! ## ToolOutputBudget and TurnMetrics (src/codex-rs/core/src/state/turn.rs
lines 296-396) -/

/-- `TurnMetrics` counters; `Default` is all zeros. -/
structure TurnMetrics where
  bytes_served : Nat
  bytes_trimmed : Nat
  outputs_truncated : Nat
  commands_blocked : Nat
  log_tail_invocations : Nat
deriving DecidableEq

/-- `TurnMetrics::default()`. -/
def TurnMetrics.init : TurnMetrics := ⟨0, 0, 0, 0, 0⟩

/-- `ToolOutputBudget { max_bytes, used_bytes }`. -/
structure ToolOutputBudget where
  max_bytes : Nat
  used_bytes : Nat
deriving DecidableEq

/-- `ToolBudgetDecision`. -/
structure ToolBudgetDecision where
  allowed_content_bytes : Nat
  notice_bytes : Nat
  truncated : Bool
deriving DecidableEq

/-- `PER_TURN_OUTPUT_MAX_BYTES = 24 * 1024`. -/
def PER_TURN_OUTPUT_MAX_BYTES : Nat := 24 * 1024

/-- `TURN_OUTPUT_NOTICE_RESERVE_BYTES = 128`. -/
def TURN_OUTPUT_NOTICE_RESERVE_BYTES : Nat := 128

/-- `ToolOutputBudget::remaining` (`max_bytes.saturating_sub(used_bytes)`). -/
def ToolOutputBudget.remaining (b : ToolOutputBudget) : Nat :=
  b.max_bytes - b.used_bytes

/-- `ToolOutputBudget::consume`. -/
def ToolOutputBudget.consume (b : ToolOutputBudget) (bytes : Nat) : ToolOutputBudget :=
  ⟨b.max_bytes, min (satAdd b.used_bytes bytes) b.max_bytes⟩

/-- `ToolOutputBudget::reserve` (turn.rs lines 339-388).  Returns the decision
together with the updated budget and metrics (the Rust method mutates both). -/
def ToolOutputBudget.reserve (b : ToolOutputBudget) (desired_bytes notice_len : Nat)
    (metrics : TurnMetrics) : ToolBudgetDecision × ToolOutputBudget × TurnMetrics :=
  if desired_bytes = 0 then (⟨0, 0, false⟩, b, metrics)
  else
    let remaining := b.remaining
    if desired_bytes ≤ remaining then
      (⟨desired_bytes, 0, false⟩, b.consume desired_bytes,
        ⟨satAdd metrics.bytes_served desired_bytes, metrics.bytes_trimmed,
          metrics.outputs_truncated, metrics.commands_blocked, metrics.log_tail_invocations⟩)
    else
      let notice_cap := min TURN_OUTPUT_NOTICE_RESERVE_BYTES notice_len
      let alloc := if remaining = 0 then (0, notice_cap)
        else (remaining - min remaining notice_cap, min remaining notice_cap)
      let served_bytes := satAdd alloc.1 alloc.2
      (⟨alloc.1, alloc.2, true⟩, b.consume served_bytes,
        ⟨satAdd metrics.bytes_served served_bytes,
          satAdd metrics.bytes_trimmed (desired_bytes - alloc.1),
          satAdd metrics.outputs_truncated 1,
          metrics.commands_blocked, metrics.log_tail_invocations⟩)

/-- The budget/metrics slice of `TurnState` (the other `TurnState` fields do not
interact with the budget). -/
structure TurnStateB where
  tool_output_budget : ToolOutputBudget
  metrics : TurnMetrics
deriving DecidableEq

/-- `TurnState::default()`: a fresh 24 KiB budget and zeroed metrics. -/
def TurnStateB.init : TurnStateB := ⟨⟨PER_TURN_OUTPUT_MAX_BYTES, 0⟩, TurnMetrics.init⟩

/-- `TurnState::reserve_tool_output`. -/
def TurnStateB.reserve_tool_output (st : TurnStateB) (desired_bytes notice_len : Nat) :
    ToolBudgetDecision × TurnStateB :=
  match st.tool_output_budget.reserve desired_bytes notice_len st.metrics with
  | (d, b, m) => (d, ⟨b, m⟩)

/-- `TurnState::drain_metrics` (`std::mem::take`). -/
def TurnStateB.drain_metrics (st : TurnStateB) : TurnMetrics × TurnStateB :=
  (st.metrics, ⟨st.tool_output_budget, TurnMetrics.init⟩)

/-- The spec's formula for the notice grant on the truncation path:
`notice_cap = min(128, notice_len)`; all of it when the budget is exhausted,
otherwise at most `remaining`. -/
def noticeGrant (remaining notice_len : Nat) : Nat :=
  if remaining = 0 then min 128 notice_len else min remaining (min 128 notice_len)

/-- The spec's formula for the content grant on the truncation path. -/
def contentGrant (remaining notice_len : Nat) : Nat :=
  if remaining = 0 then 0 else remaining - min remaining (min 128 notice_len)

theorem consume_bounds (b : ToolOutputBudget) (k : Nat)
    (h0 : b.used_bytes ≤ b.max_bytes) (hM : b.max_bytes ≤ USIZE_MAX) :
    b.used_bytes ≤ (b.consume k).used_bytes
    ∧ (b.consume k).used_bytes ≤ b.max_bytes
    ∧ (b.consume k).max_bytes = b.max_bytes := by
  unfold ToolOutputBudget.consume
  simp only [satAdd]
  refine ⟨?_, ?_, trivial⟩ <;> simp <;> omega

/-- The spec's literal budget scenario: from a fresh turn state, reserve
`24*1024 - 100` bytes with no notice, drain the metrics, then reserve 200 bytes
with an 80-byte notice. -/
def budgetScenario : ToolBudgetDecision × TurnStateB :=
  ((TurnStateB.init.reserve_tool_output (24 * 1024 - 100) 0).2.drain_metrics).2.reserve_tool_output
    200 80

/-- Claim C5: when `desired` exceeds the remaining budget, `reserve` grants
`notice_bytes = min(remaining, min(128, notice_len))` (all of `min(128,
notice_len)` when the budget is exhausted), `allowed_content_bytes = remaining -
notice_bytes` (zero when exhausted), marks the decision truncated, consumes
`content + notice`, and bumps the metrics by `bytes_served += content + notice`,
`bytes_trimmed += desired - content`, `outputs_truncated += 1`.  The second
conjunct is the spec's literal scenario: from a fresh 24 KiB budget,
`reserve(24*1024 - 100, 0)`; `drain_metrics`; then `reserve(200, 80)` yields
`{allowed: 20, notice: 80, truncated: true}` with metrics
`bytes_served = 100, bytes_trimmed = 180, outputs_truncated = 1`. -/
theorem C5_reserve_truncation (b : ToolOutputBudget) (m : TurnMetrics)
    (desired notice_len : Nat)
    (hover : b.remaining < desired) (hmax : b.max_bytes ≤ USIZE_MAX)
    (hm1 : m.bytes_served + b.remaining + 128 ≤ USIZE_MAX)
    (hm2 : m.bytes_trimmed + desired ≤ USIZE_MAX)
    (hm3 : m.outputs_truncated + 1 ≤ USIZE_MAX) :
    (b.reserve desired notice_len m =
      (⟨contentGrant b.remaining notice_len, noticeGrant b.remaining notice_len, true⟩,
       ⟨b.max_bytes,
        min (b.used_bytes +
          (contentGrant b.remaining notice_len + noticeGrant b.remaining notice_len))
          b.max_bytes⟩,
       ⟨m.bytes_served +
          (contentGrant b.remaining notice_len + noticeGrant b.remaining notice_len),
        m.bytes_trimmed + (desired - contentGrant b.remaining notice_len),
        m.outputs_truncated + 1, m.commands_blocked, m.log_tail_invocations⟩))
    ∧ budgetScenario.1 = ⟨20, 80, true⟩
    ∧ budgetScenario.2.metrics = ⟨100, 180, 1, 0, 0⟩ := by
  refine ⟨?_, by decide, by decide⟩
  have hd0 : ¬ desired = 0 := by omega
  have hns : ¬ desired ≤ b.remaining := by omega
  have hrem : b.remaining ≤ b.max_bytes := by
    simp only [ToolOutputBudget.remaining]
    omega
  simp only [ToolOutputBudget.reserve, if_neg hd0, if_neg hns, ToolOutputBudget.consume]
  by_cases h0 : b.remaining = 0
  · rw [if_pos h0]
    simp only [noticeGrant, contentGrant, if_pos h0, TURN_OUTPUT_NOTICE_RESERVE_BYTES,
      satAdd, Prod.mk.injEq, ToolBudgetDecision.mk.injEq, ToolOutputBudget.mk.injEq,
      TurnMetrics.mk.injEq]
    try simp only [eq_self_iff_true, true_and, and_true]
    omega
  · rw [if_neg h0]
    simp only [noticeGrant, contentGrant, if_neg h0, TURN_OUTPUT_NOTICE_RESERVE_BYTES,
      satAdd, Prod.mk.injEq, ToolBudgetDecision.mk.injEq, ToolOutputBudget.mk.injEq,
      TurnMetrics.mk.injEq]
    try simp only [eq_self_iff_true, true_and, and_true]
    omega

/-- Witness for C5 at a concrete over-budget call. -/
theorem C5_reserve_truncation_witness :
    (ToolOutputBudget.reserve ⟨100, 90⟩ 50 200 TurnMetrics.init =
      (⟨0, 10, true⟩, ⟨100, 100⟩, ⟨10, 50, 1, 0, 0⟩)) := by
  have h := (C5_reserve_truncation ⟨100, 90⟩ TurnMetrics.init 50 200
    (by decide) (by decide) (by decide) (by decide) (by decide)).1
  simpa [contentGrant, noticeGrant, ToolOutputBudget.remaining] using h

/-- One `reserve` call as a state transformer on (budget, metrics), for folding
a call sequence. -/
def reserveStep (st : ToolOutputBudget × TurnMetrics) (call : Nat × Nat) :
    ToolOutputBudget × TurnMetrics :=
  (st.1.reserve call.1 call.2 st.2).2

/-- `used_bytes` is non-decreasing along a list of successive budget states. -/
def MonoUsed : List (ToolOutputBudget × TurnMetrics) → Prop
  | [] => True
  | [_] => True
  | x :: y :: rest => x.1.used_bytes ≤ y.1.used_bytes ∧ MonoUsed (y :: rest)

theorem reserve_step_bounds (b : ToolOutputBudget) (m : TurnMetrics) (d n : Nat)
    (h0 : b.used_bytes ≤ b.max_bytes) (hM : b.max_bytes ≤ USIZE_MAX) :
    b.used_bytes ≤ ((b.reserve d n m).2.1).used_bytes
    ∧ ((b.reserve d n m).2.1).used_bytes ≤ b.max_bytes
    ∧ ((b.reserve d n m).2.1).max_bytes = b.max_bytes := by
  simp only [ToolOutputBudget.reserve]
  split
  · exact ⟨le_refl _, h0, rfl⟩
  · split
    · exact consume_bounds b d h0 hM
    · exact consume_bounds b _ h0 hM

theorem MonoUsed_cons_scanl (f : ToolOutputBudget × TurnMetrics → Nat × Nat →
      ToolOutputBudget × TurnMetrics)
    (cs : List (Nat × Nat)) (st0 st1 : ToolOutputBudget × TurnMetrics)
    (h : st0.1.used_bytes ≤ st1.1.used_bytes)
    (hm : MonoUsed (List.scanl f st1 cs)) :
    MonoUsed (st0 :: List.scanl f st1 cs) := by
  cases cs with
  | nil => exact ⟨h, trivial⟩
  | cons c cs' => exact ⟨h, hm⟩

/-- Claim C6: along any sequence of `reserve` calls from a budget state with
`used_bytes ≤ max_bytes`, the successive states have non-decreasing
`used_bytes`, and `used_bytes ≤ max_bytes` holds after every call (with
`max_bytes` unchanged throughout). -/
theorem C6_budget_monotone (calls : List (Nat × Nat)) (b0 : ToolOutputBudget)
    (m0 : TurnMetrics) (h0 : b0.used_bytes ≤ b0.max_bytes) (hM : b0.max_bytes ≤ USIZE_MAX) :
    MonoUsed (List.scanl reserveStep (b0, m0) calls)
    ∧ ∀ st ∈ List.scanl reserveStep (b0, m0) calls,
        st.1.used_bytes ≤ st.1.max_bytes ∧ st.1.max_bytes = b0.max_bytes := by
  induction calls generalizing b0 m0 with
  | nil =>
    refine ⟨trivial, ?_⟩
    intro st hst
    simp only [List.scanl, List.mem_singleton] at hst
    subst hst
    exact ⟨h0, rfl⟩
  | cons c cs ih =>
    have hstep := reserve_step_bounds b0 m0 c.1 c.2 h0 hM
    have hst1_used : (reserveStep (b0, m0) c).1.used_bytes ≤ (reserveStep (b0, m0) c).1.max_bytes := by
      have := hstep.2.1
      have := hstep.2.2
      unfold reserveStep
      simp only
      omega
    have hst1_max : (reserveStep (b0, m0) c).1.max_bytes = b0.max_bytes := hstep.2.2
    obtain ⟨ihm, ihb⟩ := ih (reserveStep (b0, m0) c).1 (reserveStep (b0, m0) c).2
      hst1_used (by rw [hst1_max]; exact hM)
    rw [show ((reserveStep (b0, m0) c).1, (reserveStep (b0, m0) c).2) = reserveStep (b0, m0) c
      from rfl] at ihm ihb
    constructor
    · simp only [List.scanl]
      exact MonoUsed_cons_scanl reserveStep cs (b0, m0) (reserveStep (b0, m0) c) hstep.1 ihm
    · intro st hst
      simp only [List.scanl, List.mem_cons] at hst
      rcases hst with hst | hst
      · subst hst
        exact ⟨h0, rfl⟩
      · have := ihb st hst
        exact ⟨this.1, by rw [this.2, hst1_max]⟩

/-- Witness for C6 at a concrete call sequence crossing the budget limit. -/
theorem C6_budget_monotone_witness :
    MonoUsed (List.scanl reserveStep (⟨24 * 1024, 0⟩, TurnMetrics.init)
      [(100, 10), (30000, 80), (5, 5)])
    ∧ ∀ st ∈ List.scanl reserveStep (⟨24 * 1024, 0⟩, TurnMetrics.init)
        [(100, 10), (30000, 80), (5, 5)],
        st.1.used_bytes ≤ st.1.max_bytes ∧ st.1.max_bytes = (24 * 1024 : Nat) :=
  C6_budget_monotone [(100, 10), (30000, 80), (5, 5)] ⟨24 * 1024, 0⟩ TurnMetrics.init
    (by decide) (by decide)

/-! ## RepeatCommandBreaker (src/codex-rs/core/src/state/session.rs lines
17-19 and 254-363).  `Instant` is modelled as a `Nat` number of seconds;
`saturating_duration_since` is `Nat` subtraction. -/

/-- `DEFAULT_REPEAT_COMMAND_REPEATS = 3`. -/
def DEFAULT_REPEAT_COMMAND_REPEATS : Nat := 3

/-- `DEFAULT_REPEAT_COMMAND_WINDOW_SECS = 120`. -/
def DEFAULT_REPEAT_COMMAND_WINDOW_SECS : Nat := 120

/-- `REPEAT_COMMAND_OUTPUT_PREVIEW_BYTES = 256`. -/
def REPEAT_COMMAND_OUTPUT_PREVIEW_BYTES : Nat := 256

/-- ASCII whitespace test for `str::trim` (the code trims whitespace from both
ends; non-ASCII Unicode whitespace does not occur in the claims). -/
def isWsChar (c : Char) : Bool := c = ' ' ∨ c = '\t' ∨ c = '\n' ∨ c = '\r'

/-- `str::trim`: drop whitespace from both ends. -/
def trimEnds (l : List Char) : List Char :=
  (((l.dropWhile isWsChar).reverse.dropWhile isWsChar).reverse)

/-- Modelled from the spec: `truncate_middle` is defined in `crate::truncate`,
which is not among the sources.  Per the spec it yields a middle-truncated
preview within the byte budget, returning the input unchanged whenever it
already fits, together with the original length. -/
def truncate_middle (s : String) (max_bytes : Nat) : String × Nat :=
  if s.length ≤ max_bytes then (s, 0)
  else (String.append (String.mk (s.data.take (max_bytes / 2)))
    (String.mk (s.data.drop (s.data.length - max_bytes / 2))), s.length)

/-- `fingerprint_output` (session.rs lines 346-353) computes a 64-bit
`DefaultHasher` digest of the output; the spec allows "any reasonable stable
byte hash", so the hash is abstracted as the collision-free identity
fingerprint on the output string (hash collisions are ignored). -/
def fingerprint_output (output : String) : String := output

/-- `output_preview` (session.rs lines 355-363). -/
def output_preview (output : String) : Option String :=
  let trimmed := String.mk (trimEnds output.data)
  if trimmed = "" then none
  else some (truncate_middle trimmed REPEAT_COMMAND_OUTPUT_PREVIEW_BYTES).1

/-- `RepeatCommandConfig`. -/
structure RepeatCommandConfig where
  max_repeats : Nat
  window : Nat
deriving DecidableEq

/-- `RepeatCommandConfig::default()`: 3 repeats, 120 s window. -/
def RepeatCommandConfig.init : RepeatCommandConfig :=
  ⟨DEFAULT_REPEAT_COMMAND_REPEATS, DEFAULT_REPEAT_COMMAND_WINDOW_SECS⟩

/-- `RepeatCommandEntry`. -/
structure RepeatCommandEntry where
  last_fingerprint : String
  repeat_count : Nat
  last_seen : Nat
  last_excerpt : Option String
deriving DecidableEq

/-- `RepeatCommandBlock`. -/
structure RepeatCommandBlock where
  repeat_count : Nat
  window : Nat
  last_excerpt : Option String
deriving DecidableEq

/-- `RepeatCommandBreaker`: the `HashMap` of entries is modelled as a
duplicate-key-free association list. -/
structure RepeatCommandBreaker where
  entries : List (List String × RepeatCommandEntry)
  config : RepeatCommandConfig
deriving DecidableEq

/-- `RepeatCommandBreaker::default()`. -/
def RepeatCommandBreaker.init : RepeatCommandBreaker := ⟨[], RepeatCommandConfig.init⟩

/-- `HashMap::get`. -/
def lookupEntry (k : List String) :
    List (List String × RepeatCommandEntry) → Option RepeatCommandEntry
  | [] => none
  | (k', v) :: rest => if k' = k then some v else lookupEntry k rest

/-- `HashMap::insert` (replace an existing binding in place). -/
def insertEntry (k : List String) (v : RepeatCommandEntry) :
    List (List String × RepeatCommandEntry) → List (List String × RepeatCommandEntry)
  | [] => [(k, v)]
  | (k', v') :: rest => if k' = k then (k, v) :: rest else (k', v') :: insertEntry k v rest

/-- `HashMap::remove`. -/
def removeEntry (k : List String) :
    List (List String × RepeatCommandEntry) → List (List String × RepeatCommandEntry)
  | [] => []
  | (k', v') :: rest => if k' = k then rest else (k', v') :: removeEntry k rest

/-- `RepeatCommandBreaker::is_enabled`. -/
def RepeatCommandBreaker.is_enabled (br : RepeatCommandBreaker) : Bool :=
  decide (1 < br.config.max_repeats)

/-- `RepeatCommandBreaker::check` (session.rs lines 282-310); returns the
optional block and the (possibly expired-entry-pruned) breaker. -/
def RepeatCommandBreaker.check (br : RepeatCommandBreaker) (command : List String)
    (now : Nat) : Option RepeatCommandBlock × RepeatCommandBreaker :=
  if br.is_enabled = false ∨ command = [] then (none, br)
  else
    match lookupEntry command br.entries with
    | none => (none, br)
    | some entry =>
      if br.config.window < now - entry.last_seen then
        (none, ⟨removeEntry command br.entries, br.config⟩)
      else if br.config.max_repeats - 1 = 0 then (none, br)
      else if br.config.max_repeats - 1 ≤ entry.repeat_count then
        (some ⟨entry.repeat_count, br.config.window, entry.last_excerpt⟩, br)
      else (none, br)

/-- `RepeatCommandBreaker::record` (session.rs lines 312-343). -/
def RepeatCommandBreaker.record (br : RepeatCommandBreaker) (command : List String)
    (output : String) (now : Nat) : RepeatCommandBreaker :=
  if br.is_enabled = false ∨ command = [] then br
  else
    let fingerprint := fingerprint_output output
    let excerpt := output_preview output
    match lookupEntry command br.entries with
    | some entry =>
      let entry2 : RepeatCommandEntry :=
        if br.config.window < now - entry.last_seen ∨ ¬ entry.last_fingerprint = fingerprint then
          ⟨fingerprint, 1, now, excerpt⟩
        else
          ⟨entry.last_fingerprint, min (entry.repeat_count + 1) br.config.max_repeats, now, excerpt⟩
      ⟨insertEntry command entry2 br.entries, br.config⟩
    | none => ⟨insertEntry command ⟨fingerprint, 1, now, excerpt⟩ br.entries, br.config⟩

/-- Fold a sequence of `record(cmd, output, t)` calls over a timestamp list. -/
def recordMany (br : RepeatCommandBreaker) (command : List String) (output : String)
    (ts : List Nat) : RepeatCommandBreaker :=
  ts.foldl (fun b t => b.record command output t) br

/-- Timestamps ascending from `prev` with consecutive gaps at most `w`. -/
def ChainWithin (w : Nat) : Nat → List Nat → Prop
  | _, [] => True
  | prev, t :: rest => prev ≤ t ∧ t - prev ≤ w ∧ ChainWithin w t rest

/-- Last element of `prev :: ts`. -/
def lastD : Nat → List Nat → Nat
  | d, [] => d
  | _, t :: rest => lastD t rest

theorem record_step_new (cmd : List String) (out : String) (t0 : Nat) (hcmd : cmd ≠ []) :
    RepeatCommandBreaker.record RepeatCommandBreaker.init cmd out t0
      = ⟨[(cmd, ⟨fingerprint_output out, 1, t0, output_preview out⟩)],
          RepeatCommandConfig.init⟩ := by
  have hcond : ¬(RepeatCommandBreaker.init.is_enabled = false ∨ cmd = []) := by
    simp [RepeatCommandBreaker.is_enabled, RepeatCommandBreaker.init, RepeatCommandConfig.init,
      DEFAULT_REPEAT_COMMAND_REPEATS, hcmd]
  unfold RepeatCommandBreaker.record
  rw [if_neg hcond]
  simp [RepeatCommandBreaker.init, lookupEntry, insertEntry]

theorem record_step_same (cmd : List String) (out : String) (c tprev t : Nat)
    (ex : Option String) (hcmd : cmd ≠ []) (hw : t - tprev ≤ 120) :
    RepeatCommandBreaker.record
        ⟨[(cmd, ⟨fingerprint_output out, c, tprev, ex⟩)], RepeatCommandConfig.init⟩ cmd out t
      = ⟨[(cmd, ⟨fingerprint_output out, min (c + 1) 3, t, output_preview out⟩)],
          RepeatCommandConfig.init⟩ := by
  have hcond : ¬((RepeatCommandBreaker.mk
      [(cmd, ⟨fingerprint_output out, c, tprev, ex⟩)] RepeatCommandConfig.init).is_enabled
        = false ∨ cmd = []) := by
    simp [RepeatCommandBreaker.is_enabled, RepeatCommandConfig.init,
      DEFAULT_REPEAT_COMMAND_REPEATS, hcmd]
  unfold RepeatCommandBreaker.record
  rw [if_neg hcond]
  simp only [lookupEntry, eq_self_iff_true, if_true, not_true, or_false]
  have hw2 : ¬(RepeatCommandConfig.init.window < t - tprev) := by
    simp only [RepeatCommandConfig.init, DEFAULT_REPEAT_COMMAND_WINDOW_SECS]
    omega
  rw [if_neg hw2]
  simp [insertEntry, RepeatCommandConfig.init, DEFAULT_REPEAT_COMMAND_REPEATS]

theorem record_step_reset (cmd : List String) (out out' : String) (c tprev t : Nat)
    (ex : Option String) (hcmd : cmd ≠ [])
    (hfp : ¬ fingerprint_output out = fingerprint_output out') :
    RepeatCommandBreaker.record
        ⟨[(cmd, ⟨fingerprint_output out, c, tprev, ex⟩)], RepeatCommandConfig.init⟩ cmd out' t
      = ⟨[(cmd, ⟨fingerprint_output out', 1, t, output_preview out'⟩)],
          RepeatCommandConfig.init⟩ := by
  have hcond : ¬((RepeatCommandBreaker.mk
      [(cmd, ⟨fingerprint_output out, c, tprev, ex⟩)] RepeatCommandConfig.init).is_enabled
        = false ∨ cmd = []) := by
    simp [RepeatCommandBreaker.is_enabled, RepeatCommandConfig.init,
      DEFAULT_REPEAT_COMMAND_REPEATS, hcmd]
  unfold RepeatCommandBreaker.record
  rw [if_neg hcond]
  simp only [lookupEntry, eq_self_iff_true, if_true]
  rw [if_pos (Or.inr hfp : RepeatCommandConfig.init.window < t - tprev
      ∨ ¬ fingerprint_output out = fingerprint_output out')]
  simp [insertEntry]

theorem check_single (cmd : List String) (f : String) (ex : Option String) (c tl t : Nat)
    (hcmd : cmd ≠ []) (hw : t - tl ≤ 120) :
    (RepeatCommandBreaker.check
        ⟨[(cmd, ⟨f, c, tl, ex⟩)], RepeatCommandConfig.init⟩ cmd t).1
      = if 2 ≤ c then some ⟨c, 120, ex⟩ else none := by
  have hcond : ¬((RepeatCommandBreaker.mk
      [(cmd, ⟨f, c, tl, ex⟩)] RepeatCommandConfig.init).is_enabled = false ∨ cmd = []) := by
    simp [RepeatCommandBreaker.is_enabled, RepeatCommandConfig.init,
      DEFAULT_REPEAT_COMMAND_REPEATS, hcmd]
  unfold RepeatCommandBreaker.check
  rw [if_neg hcond]
  simp only [lookupEntry, eq_self_iff_true, if_true]
  have hw2 : ¬(RepeatCommandConfig.init.window < t - tl) := by
    simp only [RepeatCommandConfig.init, DEFAULT_REPEAT_COMMAND_WINDOW_SECS]
    omega
  rw [if_neg hw2]
  by_cases h2 : 2 ≤ c
  · simp [RepeatCommandConfig.init, DEFAULT_REPEAT_COMMAND_REPEATS,
      DEFAULT_REPEAT_COMMAND_WINDOW_SECS, h2]
  · simp [RepeatCommandConfig.init, DEFAULT_REPEAT_COMMAND_REPEATS,
      DEFAULT_REPEAT_COMMAND_WINDOW_SECS, h2]

theorem check_count_one (cmd : List String) (f : String) (ex : Option String) (tl t : Nat)
    (hcmd : cmd ≠ []) :
    (RepeatCommandBreaker.check
        ⟨[(cmd, ⟨f, 1, tl, ex⟩)], RepeatCommandConfig.init⟩ cmd t).1 = none := by
  by_cases hw : 120 < t - tl
  · have hcond : ¬((RepeatCommandBreaker.mk
        [(cmd, ⟨f, 1, tl, ex⟩)] RepeatCommandConfig.init).is_enabled = false ∨ cmd = []) := by
      simp [RepeatCommandBreaker.is_enabled, RepeatCommandConfig.init,
        DEFAULT_REPEAT_COMMAND_REPEATS, hcmd]
    unfold RepeatCommandBreaker.check
    rw [if_neg hcond]
    simp only [lookupEntry, eq_self_iff_true, if_true]
    have hw2 : RepeatCommandConfig.init.window < t - tl := by
      simpa [RepeatCommandConfig.init, DEFAULT_REPEAT_COMMAND_WINDOW_SECS] using hw
    rw [if_pos hw2]
  · rw [check_single cmd f ex 1 tl t hcmd (by omega)]
    simp

theorem recordMany_single :
    ∀ (ts : List Nat) (cmd : List String) (out : String) (c tprev : Nat),
      cmd ≠ [] → 1 ≤ c → c ≤ 3 → ChainWithin 120 tprev ts →
      recordMany ⟨[(cmd, ⟨fingerprint_output out, c, tprev, output_preview out⟩)],
          RepeatCommandConfig.init⟩ cmd out ts
        = ⟨[(cmd, ⟨fingerprint_output out, min (c + ts.length) 3, lastD tprev ts,
            output_preview out⟩)], RepeatCommandConfig.init⟩ := by
  intro ts
  induction ts with
  | nil =>
    intro cmd out c tprev hcmd hc1 hc3 _
    simp only [recordMany, List.foldl_nil, lastD, List.length_nil]
    have hc : min (c + 0) 3 = c := by omega
    rw [hc]
  | cons t rest ih =>
    intro cmd out c tprev hcmd hc1 hc3 hchain
    obtain ⟨hle, hgap, hchain'⟩ := hchain
    simp only [recordMany, List.foldl_cons]
    rw [record_step_same cmd out c tprev t (output_preview out) hcmd hgap]
    have hih := ih cmd out (min (c + 1) 3) t hcmd (by omega) (by omega) hchain'
    simp only [recordMany] at hih
    rw [hih]
    have hmin : min (min (c + 1) 3 + rest.length) 3 = min (c + (t :: rest).length) 3 := by
      simp only [List.length_cons]
      omega
    rw [hmin]
    rfl

/-- Claim C7: after `N` `record(cmd, out, tᵢ)` calls at in-window timestamps on
a fresh breaker, an in-window `check(cmd, t)` returns `Some` iff
`N ≥ max_repeats - 1 = 2`, and the block then carries
`repeat_count = min(N, max_repeats)`, `window = 120` and
`last_excerpt = output_preview out`; recording a different output (different
fingerprint) afterwards resets the counter to 1, so any subsequent `check`
returns `None`. -/
theorem C7_breaker (cmd : List String) (out : String) (t0 : Nat) (ts : List Nat) (t : Nat)
    (hcmd : cmd ≠ []) (hchain : ChainWithin 120 t0 ts) (ht : t - lastD t0 ts ≤ 120) :
    ((RepeatCommandBreaker.check
        (recordMany RepeatCommandBreaker.init cmd out (t0 :: ts)) cmd t).1
      = if 2 ≤ (t0 :: ts).length then
          some ⟨min (t0 :: ts).length 3, 120, output_preview out⟩
        else none)
    ∧ ∀ (out' : String) (t' t'' : Nat),
        fingerprint_output out' ≠ fingerprint_output out →
        (RepeatCommandBreaker.check
          (RepeatCommandBreaker.record
            (recordMany RepeatCommandBreaker.init cmd out (t0 :: ts)) cmd out' t') cmd t'').1
          = none := by
  have hstate : recordMany RepeatCommandBreaker.init cmd out (t0 :: ts)
      = ⟨[(cmd, ⟨fingerprint_output out, min (1 + ts.length) 3, lastD t0 ts,
          output_preview out⟩)], RepeatCommandConfig.init⟩ := by
    simp only [recordMany, List.foldl_cons]
    rw [record_step_new cmd out t0 hcmd]
    have h := recordMany_single ts cmd out 1 t0 hcmd (by omega) (by omega) hchain
    simp only [recordMany] at h
    exact h
  constructor
  · rw [hstate,
      check_single cmd (fingerprint_output out) (output_preview out) _ _ t hcmd ht]
    simp only [List.length_cons]
    have hmm : min (1 + ts.length) 3 = min (ts.length + 1) 3 := by omega
    rw [hmm]
    by_cases h2 : 2 ≤ ts.length + 1
    · rw [if_pos (by omega : 2 ≤ min (ts.length + 1) 3), if_pos h2]
    · rw [if_neg (by omega : ¬ 2 ≤ min (ts.length + 1) 3), if_neg h2]
  · intro out' t' t'' hfp
    rw [hstate,
      record_step_reset cmd out out' _ _ t' (output_preview out) hcmd (fun h => hfp h.symm)]
    exact check_count_one cmd (fingerprint_output out') (output_preview out') t' t'' hcmd

/-- Witness for C7: the spec's literal breaker scenario (two "alpha" records at
t=0s and t=2s; check at t=3s blocks with repeat_count 2 and excerpt "alpha";
recording "two" then makes the next check pass). -/
theorem C7_breaker_witness :
    (RepeatCommandBreaker.check
        (recordMany RepeatCommandBreaker.init ["git", "status"] "alpha" [0, 2])
        ["git", "status"] 3).1 = some ⟨2, 120, some "alpha"⟩
    ∧ (RepeatCommandBreaker.check
        (RepeatCommandBreaker.record
          (recordMany RepeatCommandBreaker.init ["git", "status"] "alpha" [0, 2])
          ["git", "status"] "two" 3) ["git", "status"] 4).1 = none := by
  have h := C7_breaker ["git", "status"] "alpha" 0 [2] 3 (by decide)
    ⟨by norm_num, by norm_num, trivial⟩ (by decide)
  constructor
  · rw [h.1]
    decide
  · exact h.2 "two" 3 4 (by decide)

/-! ## compute_unserved_code_ranges (src/codex-rs/core/src/state/turn.rs lines
100-135; an identical copy in src/codex-rs/core/src/state/session.rs lines
105-140).  The `code_read_index` HashMap lookup for the queried path is
modelled by an `Option IntervalSet`. -/

/-- A requested range passes the guard (`start != 0 && end != 0 && start <= end`). -/
def validRange (r : Nat × Nat) : Bool := decide (¬(r.1 = 0 ∨ r.2 = 0 ∨ r.2 < r.1))

/-- `end.saturating_sub(start).saturating_add(1)`. -/
def rangeLen (r : Nat × Nat) : Nat := satAdd (r.2 - r.1) 1

/-- Total length of a list of missing ranges. -/
def missingLen (l : List (Nat × Nat)) : Nat := (l.map rangeLen).sum

/-- One iteration of the loop over requested ranges (turn.rs lines 112-128). -/
def unservedStep (intervals : IntervalSet) (acc : List (Nat × Nat) × Bool)
    (r : Nat × Nat) : List (Nat × Nat) × Bool :=
  if r.1 = 0 ∨ r.2 = 0 ∨ r.2 < r.1 then acc
  else
    (if (intervals.subtract r.1 r.2).isEmpty then acc.1
      else acc.1 ++ intervals.subtract r.1 r.2,
     if missingLen (intervals.subtract r.1 r.2) < rangeLen r then true else acc.2)

/-- `compute_unserved_code_ranges` (turn.rs lines 100-135). -/
def compute_unserved_code_ranges (index : Option IntervalSet)
    (ranges : List (Nat × Nat)) : List (Nat × Nat) × Bool :=
  match index with
  | none => (ranges, false)
  | some intervals =>
    let res := ranges.foldl (unservedStep intervals) ([], false)
    if res.1.isEmpty then ([], res.2) else res

/-- Concatenation of `intervals.subtract` over a list of requests. -/
def concatMissing (intervals : IntervalSet) : List (Nat × Nat) → List (Nat × Nat)
  | [] => []
  | r :: rest => intervals.subtract r.1 r.2 ++ concatMissing intervals rest

/-- Some request's missing ranges total strictly less than the request length. -/
def anyOverlap (intervals : IntervalSet) (rs : List (Nat × Nat)) : Bool :=
  rs.any fun r => decide (missingLen (intervals.subtract r.1 r.2) < rangeLen r)

theorem unserved_fold_spec (intervals : IntervalSet) :
    ∀ (ranges : List (Nat × Nat)) (acc : List (Nat × Nat) × Bool),
      ranges.foldl (unservedStep intervals) acc
        = (acc.1 ++ concatMissing intervals (ranges.filter validRange),
           acc.2 || anyOverlap intervals (ranges.filter validRange)) := by
  intro ranges
  induction ranges with
  | nil =>
    intro acc
    simp [concatMissing, anyOverlap]
  | cons r rest ih =>
    intro acc
    simp only [List.foldl_cons]
    by_cases hv : r.1 = 0 ∨ r.2 = 0 ∨ r.2 < r.1
    · have hstep : unservedStep intervals acc r = acc := by
        unfold unservedStep
        rw [if_pos hv]
      have hfil : (r :: rest).filter validRange = rest.filter validRange := by
        rw [List.filter_cons_of_neg]
        simp [validRange, hv]
      rw [hstep, hfil]
      exact ih acc
    · have hfil : (r :: rest).filter validRange = r :: rest.filter validRange := by
        rw [List.filter_cons_of_pos]
        simp [validRange, hv]
      have hstep : unservedStep intervals acc r
          = (acc.1 ++ intervals.subtract r.1 r.2,
             acc.2 || decide (missingLen (intervals.subtract r.1 r.2) < rangeLen r)) := by
        unfold unservedStep
        rw [if_neg hv]
        refine Prod.ext ?_ ?_
        · cases hsub : intervals.subtract r.1 r.2 with
          | nil => simp [hsub]
          | cons a l => simp [hsub]
        · by_cases hlt : missingLen (intervals.subtract r.1 r.2) < rangeLen r
          · simp [hlt]
          · simp [hlt]
      rw [hfil, hstep, ih (acc.1 ++ intervals.subtract r.1 r.2,
        acc.2 || decide (missingLen (intervals.subtract r.1 r.2) < rangeLen r))]
      simp [concatMissing, anyOverlap, Bool.or_assoc]

/-- Claim C8, amended: when the path has a ledger entry, invalid requested
ranges are skipped, the uncovered list is the concatenation of
`intervals.subtract(start, end)` over the valid requests, and `had_overlap` is
true iff some valid request's missing ranges total strictly less than
`end - start + 1`.  When no entry exists for the path, the request list is
returned verbatim — including any invalid ranges — with `had_overlap = false`
(this last behaviour is what falsifies the claim as stated, see the
counterexample). -/
theorem C8_compute_unserved (intervals : IntervalSet) (ranges : List (Nat × Nat)) :
    compute_unserved_code_ranges none ranges = (ranges, false)
    ∧ (compute_unserved_code_ranges (some intervals) ranges).1
        = concatMissing intervals (ranges.filter validRange)
    ∧ (compute_unserved_code_ranges (some intervals) ranges).2
        = anyOverlap intervals (ranges.filter validRange) := by
  refine ⟨rfl, ?_, ?_⟩ <;>
    · simp only [compute_unserved_code_ranges]
      rw [unserved_fold_spec intervals ranges ([], false)]
      simp only [List.nil_append, Bool.false_or]
      cases hc : concatMissing intervals (ranges.filter validRange) with
      | nil => simp
      | cons a l => simp

/-- Claim C8 counterexample: with no ledger entry for the path,
`compute_unserved_code_ranges` returns the request list verbatim, so the
invalid request `(0, 5)` appears in the returned uncovered list. -/
theorem C8_counterexample :
    compute_unserved_code_ranges none [(0, 5)] = ([(0, 5)], false)
    ∧ ¬(∀ r ∈ (compute_unserved_code_ranges none [(0, 5)]).1, validRange r = true) := by
  refine ⟨by decide, by decide⟩

/-! ## read_capped (src/codex-rs/core/src/exec.rs lines 480-544).  One child
pipe is drained in 8 KiB reads; each non-empty chunk is (a) emitted as a delta
event while fewer than 10 000 deltas have been sent, (b) forwarded to the
aggregator channel, and (c) appended to the local capture while below the
per-stream byte cap. -/

/-- `MAX_EXEC_OUTPUT_DELTAS_PER_CALL = 10_000`. -/
def MAX_EXEC_OUTPUT_DELTAS_PER_CALL : Nat := 10000

/-- The mutable state of the `read_capped` loop: the capture buffer `buf`, the
`truncated` flag, the delta counter, the delta chunks sent to the subscriber,
and the chunks forwarded to the aggregator channel. -/
structure CapState where
  buf : List Nat
  truncated : Bool
  emitted_deltas : Nat
  deltas : List (List Nat)
  forwarded : List (List Nat)
deriving DecidableEq

/-- One loop iteration of `read_capped` on a chunk read from the pipe. -/
def readCappedStep (hasStream hasAgg : Bool) (max_bytes : Nat) (st : CapState)
    (chunk : List Nat) : CapState :=
  let st1 := if hasStream = true ∧ st.emitted_deltas < MAX_EXEC_OUTPUT_DELTAS_PER_CALL
    then ⟨st.buf, st.truncated, st.emitted_deltas + 1, st.deltas ++ [chunk], st.forwarded⟩
    else st
  let st2 := if hasAgg
    then ⟨st1.buf, st1.truncated, st1.emitted_deltas, st1.deltas, st1.forwarded ++ [chunk]⟩
    else st1
  if st2.buf.length < max_bytes then
    ⟨st2.buf ++ chunk.take (min (max_bytes - st2.buf.length) chunk.length),
     if min (max_bytes - st2.buf.length) chunk.length < chunk.length then true else st2.truncated,
     st2.emitted_deltas, st2.deltas, st2.forwarded⟩
  else
    ⟨st2.buf, true, st2.emitted_deltas, st2.deltas, st2.forwarded⟩

/-- `read_capped` over the finite sequence of non-empty chunks the reads
produce before EOF. -/
def read_capped (hasStream hasAgg : Bool) (max_bytes : Nat)
    (chunks : List (List Nat)) : CapState :=
  chunks.foldl (readCappedStep hasStream hasAgg max_bytes) ⟨[], false, 0, [], []⟩

theorem readCappedStep_parts (hS hA : Bool) (max_bytes : Nat) (st : CapState)
    (chunk : List Nat) :
    (readCappedStep hS hA max_bytes st chunk).buf
        = (if st.buf.length < max_bytes
            then st.buf ++ chunk.take (min (max_bytes - st.buf.length) chunk.length)
            else st.buf)
    ∧ (readCappedStep hS hA max_bytes st chunk).truncated
        = (if st.buf.length < max_bytes
            then (if min (max_bytes - st.buf.length) chunk.length < chunk.length
                  then true else st.truncated)
            else true)
    ∧ (readCappedStep hS hA max_bytes st chunk).forwarded
        = st.forwarded ++ (if hA then [chunk] else []) := by
  simp only [readCappedStep]
  split_ifs <;> simp_all

theorem read_capped_go (hS hA : Bool) (max_bytes : Nat) :
    ∀ (chunks : List (List Nat)) (done : List Nat) (st : CapState),
      st.buf = done.take max_bytes →
      st.truncated = decide (max_bytes < done.length) →
      (∀ c ∈ chunks, c ≠ []) →
      (chunks.foldl (readCappedStep hS hA max_bytes) st).buf
          = (done ++ chunks.join).take max_bytes
      ∧ (chunks.foldl (readCappedStep hS hA max_bytes) st).truncated
          = decide (max_bytes < (done ++ chunks.join).length)
      ∧ (chunks.foldl (readCappedStep hS hA max_bytes) st).forwarded
          = st.forwarded ++ (if hA then chunks else []) := by
  intro chunks
  induction chunks with
  | nil =>
    intro done st hbuf htr _
    simp only [List.foldl_nil]
    refine ⟨by simpa using hbuf, by simpa using htr, by cases hA <;> simp⟩
  | cons c cs ih =>
    intro done st hbuf htr hne
    have hlen : st.buf.length = min max_bytes done.length := by
      rw [hbuf, List.length_take]
    obtain ⟨hb, ht, hf⟩ := readCappedStep_parts hS hA max_bytes st c
    have hcne : c ≠ [] := hne c (List.mem_cons_self _ _)
    have hclen : 1 ≤ c.length := by
      cases c with
      | nil => exact absurd rfl hcne
      | cons a l => simp
    have hbuf' : (readCappedStep hS hA max_bytes st c).buf = (done ++ c).take max_bytes := by
      rw [hb]
      by_cases hlt : st.buf.length < max_bytes
      · rw [if_pos hlt]
        have hdl : done.length < max_bytes := by omega
        have hdone : st.buf = done := by
          rw [hbuf, List.take_of_length_le (by omega)]
        rw [hdone, List.take_append_eq_append_take,
          List.take_of_length_le (le_of_lt hdl)]
        congr 1
        by_cases hcl : max_bytes - done.length ≤ c.length
        · rw [min_eq_left hcl]
        · rw [min_eq_right (by omega : c.length ≤ max_bytes - done.length), List.take_length,
            List.take_of_length_le (by omega : c.length ≤ max_bytes - done.length)]
      · rw [if_neg hlt]
        have hdl : max_bytes ≤ done.length := by omega
        rw [hbuf, List.take_append_eq_append_take]
        have : max_bytes - done.length = 0 := by omega
        rw [this]
        simp
    have htr' : (readCappedStep hS hA max_bytes st c).truncated
        = decide (max_bytes < (done ++ c).length) := by
      rw [ht, htr, hlen]
      simp only [List.length_append]
      by_cases hlt : max_bytes ⊓ done.length < max_bytes
      · rw [if_pos hlt]
        by_cases hcl : (max_bytes - max_bytes ⊓ done.length) ⊓ c.length < c.length
        · rw [if_pos hcl, eq_comm, decide_eq_true_iff]
          omega
        · rw [if_neg hcl, decide_eq_decide]
          omega
      · rw [if_neg hlt, eq_comm, decide_eq_true_iff]
        omega
    have hres := ih (done ++ c) (readCappedStep hS hA max_bytes st c) hbuf' htr'
      (fun q hq => hne q (List.mem_cons_of_mem _ hq))
    simp only [List.foldl_cons]
    refine ⟨?_, ?_, ?_⟩
    · rw [hres.1, List.append_assoc]
      rfl
    · rw [hres.2.1, List.append_assoc]
      rfl
    · rw [hres.2.2, hf]
      cases hA <;> simp

/-- Claim C9: for a finite sequence of non-empty chunks, the capture is exactly
the first `min(total, max_bytes)` bytes of the concatenated stream,
`truncated_by_bytes` is set iff the total exceeds `max_bytes`, and every chunk
is still consumed and forwarded to the aggregator after the cap is reached. -/
theorem C9_read_capped (hasStream hasAgg : Bool) (max_bytes : Nat)
    (chunks : List (List Nat)) (hne : ∀ c ∈ chunks, c ≠ []) :
    (read_capped hasStream hasAgg max_bytes chunks).buf = chunks.join.take max_bytes
    ∧ (read_capped hasStream hasAgg max_bytes chunks).buf.length
        = min chunks.join.length max_bytes
    ∧ (read_capped hasStream hasAgg max_bytes chunks).truncated
        = decide (max_bytes < chunks.join.length)
    ∧ (read_capped hasStream hasAgg max_bytes chunks).forwarded
        = (if hasAgg then chunks else []) := by
  have h := read_capped_go hasStream hasAgg max_bytes chunks [] ⟨[], false, 0, [], []⟩
    (by simp) (by simp) hne
  refine ⟨?_, ?_, ?_, ?_⟩
  · rw [show read_capped hasStream hasAgg max_bytes chunks
      = chunks.foldl (readCappedStep hasStream hasAgg max_bytes) ⟨[], false, 0, [], []⟩
      from rfl, h.1]
    simp
  · rw [show read_capped hasStream hasAgg max_bytes chunks
      = chunks.foldl (readCappedStep hasStream hasAgg max_bytes) ⟨[], false, 0, [], []⟩
      from rfl, h.1]
    simp [List.length_take, Nat.min_comm]
  · rw [show read_capped hasStream hasAgg max_bytes chunks
      = chunks.foldl (readCappedStep hasStream hasAgg max_bytes) ⟨[], false, 0, [], []⟩
      from rfl, h.2.1]
    simp
  · rw [show read_capped hasStream hasAgg max_bytes chunks
      = chunks.foldl (readCappedStep hasStream hasAgg max_bytes) ⟨[], false, 0, [], []⟩
      from rfl, h.2.2]
    simp

/-- Witness for C9 at a concrete chunk sequence crossing the cap. -/
theorem C9_read_capped_witness :
    (read_capped true true 4 [[1, 2, 3], [4, 5]]).buf = [1, 2, 3, 4]
    ∧ (read_capped true true 4 [[1, 2, 3], [4, 5]]).truncated = true
    ∧ (read_capped true true 4 [[1, 2, 3], [4, 5]]).forwarded = [[1, 2, 3], [4, 5]] := by
  have h := C9_read_capped true true 4 [[1, 2, 3], [4, 5]] (by decide)
  refine ⟨?_, ?_, ?_⟩
  · rw [h.1]
    decide
  · rw [h.2.2.1]
    decide
  · rw [h.2.2.2]
    decide

/-! ## Exec outcome classification (src/codex-rs/core/src/exec.rs lines 32-51,
213-294, 417-436 and 590-601).  `ExitStatus` is modelled as the raw unix wait
status: `synthetic_exit_status` is `ExitStatus::from_raw`, `.signal()` is the
low 7 bits when they denote a signal termination (1..=126) and `.code()` is the
second byte when the low 7 bits are zero (`target_family = "unix"`, the
configuration the signal-classification block at lines 218-227 compiles for).
Stream text stays at the byte level: `String::from_utf8_lossy` only replaces
invalid UTF-8 sequences, which no claim concerns.  `duration` is wall-clock
time and is not modelled. -/

/-- `SIGKILL_CODE = 9`. -/
def SIGKILL_CODE : Nat := 9

/-- `TIMEOUT_CODE = 64`. -/
def TIMEOUT_CODE : Nat := 64

/-- `EXIT_CODE_SIGNAL_BASE = 128`. -/
def EXIT_CODE_SIGNAL_BASE : Nat := 128

/-- `EXEC_TIMEOUT_EXIT_CODE = 124`. -/
def EXEC_TIMEOUT_EXIT_CODE : Int := 124

/-- `SandboxType`. -/
inductive SandboxType where
  | noSandbox
  | macosSeatbelt
  | linuxSeccomp
deriving DecidableEq

/-- `StreamOutput<Vec<u8>>` / `StreamOutput<String>` at the byte level. -/
structure StreamOutputB where
  text : List Nat
  truncated_after_lines : Option Nat
  truncated_by_bytes : Bool
deriving DecidableEq

/-- `RawExecToolCallOutput`. -/
structure RawExecToolCallOutput where
  exit_status : Nat
  stdout : StreamOutputB
  stderr : StreamOutputB
  aggregated_output : StreamOutputB
  timed_out : Bool
deriving DecidableEq

/-- `ExecToolCallOutput` (without the unmodelled `duration`). -/
structure ExecToolCallOutput where
  exit_code : Int
  stdout : StreamOutputB
  stderr : StreamOutputB
  aggregated_output : StreamOutputB
  timed_out : Bool
deriving DecidableEq

/-- The `CodexErr::Sandbox(..)` variants reachable from the classification. -/
inductive CodexErr where
  | sandboxSignal (n : Nat)
  | sandboxTimeout (output : ExecToolCallOutput)
  | sandboxDenied (output : ExecToolCallOutput)
deriving DecidableEq

/-- unix `ExitStatus::signal()` on a raw wait status. -/
def wstatus_signal (raw : Nat) : Option Nat :=
  if raw % 128 = 0 ∨ raw % 128 = 127 then none else some (raw % 128)

/-- unix `ExitStatus::code()` on a raw wait status. -/
def wstatus_code (raw : Nat) : Option Nat :=
  if raw % 128 = 0 then some (raw / 256 % 256) else none

/-- `synthetic_exit_status` (exec.rs lines 590-594): `ExitStatus::from_raw`. -/
def synthetic_exit_status (code : Nat) : Nat := code

/-- `is_likely_sandbox_denied` (exec.rs lines 281-294). -/
def is_likely_sandbox_denied (sandbox_type : SandboxType) (exit_code : Int) : Bool :=
  if sandbox_type = SandboxType.noSandbox then false
  else if exit_code = 127 then false
  else true

/-- `append_truncation_notice` (exec.rs lines 546-555). -/
def append_truncation_notice (o : StreamOutputB) (notice : List Nat) : StreamOutputB :=
  if o.truncated_by_bytes = false then o
  else
    ⟨o.text ++ (if o.text ≠ [] ∧ o.text.getLast? ≠ some 10 then [10] else []) ++ notice,
     o.truncated_after_lines, o.truncated_by_bytes⟩

/-- Which arm of the three-way `tokio::select!` race wins (exec.rs lines
417-436): natural completion of `child.wait()` within the timeout, expiry of
the timeout, or the OS interrupt (Ctrl-C) signal. -/
inductive ExecRaceOutcome where
  | completed (status : Nat)
  | timedOut
  | interrupted
deriving DecidableEq

/-- The `(exit_status, timed_out)` pair produced by the race (exec.rs lines
417-436).  The timeout and interrupt arms also issue `child.start_kill()`; the
kill side effect is not part of the pure state. -/
def race_exit : ExecRaceOutcome → Nat × Bool
  | ExecRaceOutcome.completed status => (status, false)
  | ExecRaceOutcome.timedOut =>
      (synthetic_exit_status (EXIT_CODE_SIGNAL_BASE + TIMEOUT_CODE), true)
  | ExecRaceOutcome.interrupted =>
      (synthetic_exit_status (EXIT_CODE_SIGNAL_BASE + SIGKILL_CODE), false)

/-- The `RawExecToolCallOutput` returned by `consume_truncated_output` given
the race outcome and the three captures. -/
def consume_raw_output (o : ExecRaceOutcome)
    (stdout stderr aggregated : StreamOutputB) : RawExecToolCallOutput :=
  ⟨(race_exit o).1, stdout, stderr, aggregated, (race_exit o).2⟩

/-- The tail of `process_exec_tool_call` (exec.rs lines 229-267) after the
signal classification fixed `timed_out`. -/
def classify_core (sandbox_type : SandboxType) (notice : List Nat)
    (raw : RawExecToolCallOutput) (timed_out : Bool) : Except CodexErr ExecToolCallOutput :=
  let exit_code : Int :=
    if timed_out then EXEC_TIMEOUT_EXIT_CODE
    else match wstatus_code raw.exit_status with
      | some c => (c : Int)
      | none => -1
  let aggregated0 : StreamOutputB :=
    ⟨raw.aggregated_output.text, raw.aggregated_output.truncated_after_lines,
     if raw.stdout.truncated_by_bytes || raw.stderr.truncated_by_bytes then true
     else raw.aggregated_output.truncated_by_bytes⟩
  let out : ExecToolCallOutput :=
    ⟨exit_code, append_truncation_notice raw.stdout notice,
     append_truncation_notice raw.stderr notice,
     append_truncation_notice aggregated0 notice, timed_out⟩
  if timed_out then Except.error (CodexErr.sandboxTimeout out)
  else if exit_code ≠ 0 ∧ is_likely_sandbox_denied sandbox_type exit_code = true then
    Except.error (CodexErr.sandboxDenied out)
  else Except.ok out

/-- The outcome classification of `process_exec_tool_call` (exec.rs lines
213-267): on unix a signal equal to `TIMEOUT_CODE` forces `timed_out`, any
other signal is the fatal `Signal(n)` error, otherwise the classification
proceeds with the race's `timed_out` flag. -/
def classify_exec_output (sandbox_type : SandboxType) (notice : List Nat)
    (raw : RawExecToolCallOutput) : Except CodexErr ExecToolCallOutput :=
  match wstatus_signal raw.exit_status with
  | some s =>
    if s = TIMEOUT_CODE then classify_core sandbox_type notice raw true
    else Except.error (CodexErr.sandboxSignal s)
  | none => classify_core sandbox_type notice raw raw.timed_out

/-- Claim C2: when the timeout arm wins the race, the result is the `Timeout`
error wrapping the full `ExecResult`: `exit_code = 124`, `timed_out = true`,
and the stdout/stderr/aggregate captures all present (with the truncation
notice appended to any stream whose `truncated_by_bytes` is set, and the
aggregate flag forced when either per-stream capture was truncated). -/
theorem C2_timeout_result (sandbox_type : SandboxType) (notice : List Nat)
    (stdout stderr aggregated : StreamOutputB) :
    classify_exec_output sandbox_type notice
        (consume_raw_output ExecRaceOutcome.timedOut stdout stderr aggregated)
      = Except.error (CodexErr.sandboxTimeout
          ⟨124, append_truncation_notice stdout notice,
           append_truncation_notice stderr notice,
           append_truncation_notice
             ⟨aggregated.text, aggregated.truncated_after_lines,
              if stdout.truncated_by_bytes || stderr.truncated_by_bytes then true
              else aggregated.truncated_by_bytes⟩ notice,
           true⟩) := by
  simp only [consume_raw_output, race_exit, synthetic_exit_status, EXIT_CODE_SIGNAL_BASE,
    TIMEOUT_CODE, classify_exec_output]
  norm_num [wstatus_signal]
  simp [classify_core, EXEC_TIMEOUT_EXIT_CODE, wstatus_code]

/-- Claim C1, amended: when the interrupt (Ctrl-C) arm wins the race, the
supervisor synthesizes wait status `128 + 9 = 137` with `timed_out = false`;
on unix that status decodes as termination by signal 9, so
`process_exec_tool_call` returns the fatal `Signal(9)` error rather than an
`ExecResult` with exit code 137. -/
theorem C1_interrupt_signal (sandbox_type : SandboxType) (notice : List Nat)
    (stdout stderr aggregated : StreamOutputB) :
    classify_exec_output sandbox_type notice
        (consume_raw_output ExecRaceOutcome.interrupted stdout stderr aggregated)
      = Except.error (CodexErr.sandboxSignal 9) := by
  simp only [consume_raw_output, race_exit, synthetic_exit_status, EXIT_CODE_SIGNAL_BASE,
    SIGKILL_CODE, TIMEOUT_CODE, classify_exec_output]
  norm_num [wstatus_signal]

/-- Claim C1 counterexample: at a concrete interrupt outcome (empty captures,
no sandbox) the call returns the fatal `Signal(9)` error — it does not produce
an `ExecResult` with exit code 137 and `timed_out = false` as claimed. -/
theorem C1_counterexample :
    classify_exec_output SandboxType.noSandbox []
        (consume_raw_output ExecRaceOutcome.interrupted
          ⟨[], none, false⟩ ⟨[], none, false⟩ ⟨[], none, false⟩)
      = Except.error (CodexErr.sandboxSignal 9)
    ∧ (classify_exec_output SandboxType.noSandbox []
        (consume_raw_output ExecRaceOutcome.interrupted
          ⟨[], none, false⟩ ⟨[], none, false⟩ ⟨[], none, false⟩)).isOk = false := by
  have h : classify_exec_output SandboxType.noSandbox []
      (consume_raw_output ExecRaceOutcome.interrupted
        ⟨[], none, false⟩ ⟨[], none, false⟩ ⟨[], none, false⟩)
      = Except.error (CodexErr.sandboxSignal 9) := by
    simp only [consume_raw_output, race_exit, synthetic_exit_status, EXIT_CODE_SIGNAL_BASE,
      SIGKILL_CODE, TIMEOUT_CODE, classify_exec_output]
    norm_num [wstatus_signal]
  exact ⟨h, by rw [h]; rfl⟩

/-! ## build_content (src/codex-rs/core/src/tool_read_code.rs lines 333-398).
Line slices are byte strings (`List Nat`).  `lines.get(i - 1)` with a
1-indexed line number `i` is modelled by `getLine`: for `i = 0` the usize
subtraction `start - 1` wraps to `usize::MAX` in release builds, an index that
is always out of bounds, hence `none`. -/

/-- `lines.get(i - 1)` for the 1-indexed line number `i` (out of bounds for
`i = 0`, where the usize index wraps). -/
def getLine (lines : List (List Nat)) (i : Nat) : Option (List Nat) :=
  if i = 0 then none else lines[i - 1]?

/-- Bytes of an ASCII string literal. -/
def asciiStr (s : String) : List Nat := s.data.map Char.toNat

/-- Bytes of `format!("lines {start}-{end}:\n")`. -/
def labelBytes (start endL : Nat) : List Nat :=
  asciiStr "lines " ++ asciiStr (Nat.repr start) ++ asciiStr "-" ++ asciiStr (Nat.repr endL)
    ++ asciiStr ":" ++ [10]

/-- `content.ends_with('\n')` at the byte level. -/
def endsNewline (content : List Nat) : Bool := content.getLast? = some 10

/-- The inner loop `for line_idx in start..=end` of `build_content`
(tool_read_code.rs lines 370-383), iterating over the listed 1-indexed line
numbers: stop at a missing line, stop (setting the truncation flag) when the
next line would exceed `max_bytes`, else append the line and advance
`actual_end`. -/
def emitLines (lines : List (List Nat)) (max_bytes : Nat) :
    List Nat → List Nat → Nat → Nat → List Nat × Nat × Nat × Bool
  | [], content, used, actual => (content, used, actual, false)
  | idx :: restIdx, content, used, actual =>
    match getLine lines idx with
    | none => (content, used, actual, false)
    | some text =>
      if max_bytes < used + text.length then (content, used, actual, true)
      else emitLines lines max_bytes restIdx (content ++ text) (used + text.length) idx

/-- The index list of `start..=end`. -/
def rangeIdxs (start endL : Nat) : List Nat := List.range' start (endL + 1 - start)

/-- The outer loop of `build_content` over the requested ranges
(tool_read_code.rs lines 344-395). -/
def buildGo (lines : List (List Nat)) (max_bytes : Nat) :
    List (Nat × Nat) → List Nat → List (Nat × Nat) → Nat → Bool → Bool →
      List Nat × List (Nat × Nat) × Bool
  | [], content, served, _, _, trunc => (content, served, trunc)
  | (start, endL) :: rest, content, served, used, firstSeg, trunc =>
    match getLine lines start with
    | none => buildGo lines max_bytes rest content served used firstSeg trunc
    | some firstLine =>
      let label := labelBytes start endL
      let sep : Nat := if firstSeg = false ∧ endsNewline content = false then 1 else 0
      if max_bytes < used + (label.length + firstLine.length + sep) then
        (content, served, true)
      else
        match emitLines lines max_bytes (rangeIdxs start endL)
            (content ++ (if sep = 1 then [10] else []) ++ label)
            (used + sep + label.length) (start - 1) with
        | (content2, used2, actual, innerTrunc) =>
          let served2 := if start ≤ actual then served ++ [(start, actual)] else served
          if actual < endL then (content2, served2, true)
          else buildGo lines max_bytes rest content2 served2 used2 false (trunc || innerTrunc)

/-- `build_content` (tool_read_code.rs lines 333-398): returns the content
bytes, the actually-served subranges, and the byte-truncation flag. -/
def build_content (ranges : List (Nat × Nat)) (lines : List (List Nat))
    (max_bytes : Nat) : List Nat × List (Nat × Nat) × Bool :=
  buildGo lines max_bytes ranges [] [] 0 true false

/-- `a` occurs contiguously inside `b`. -/
def isSegmentOf (a b : List Nat) : Prop := ∃ pre post, b = pre ++ a ++ post

theorem isSegmentOf_append_right {a b : List Nat} (c : List Nat)
    (h : isSegmentOf a b) : isSegmentOf a (b ++ c) := by
  obtain ⟨pre, post, rfl⟩ := h
  exact ⟨pre, post ++ c, by simp⟩

theorem isSegmentOf_here (pre a post : List Nat) : isSegmentOf a (pre ++ a ++ post) :=
  ⟨pre, post, rfl⟩

/-- A served range's lines all exist and occur in the content. -/
def SegOK (lines : List (List Nat)) (p : Nat × Nat) (c : List Nat) : Prop :=
  ∀ i, p.1 ≤ i → i ≤ p.2 → ∃ t, getLine lines i = some t ∧ isSegmentOf t c

theorem SegOK_append_right {lines : List (List Nat)} {p : Nat × Nat} {c : List Nat}
    (suf : List Nat) (h : SegOK lines p c) : SegOK lines p (c ++ suf) := by
  intro i h1 h2
  obtain ⟨t, ht, hseg⟩ := h i h1 h2
  exact ⟨t, ht, isSegmentOf_append_right suf hseg⟩

theorem emitLines_spec (lines : List (List Nat)) (max_bytes : Nat) :
    ∀ (n j : Nat) (content : List Nat) (used : Nat) (content2 : List Nat)
      (used2 actual2 : Nat) (tr : Bool),
      1 ≤ j → used = content.length → used ≤ max_bytes →
      emitLines lines max_bytes (List.range' j n) content used (j - 1)
        = (content2, used2, actual2, tr) →
      used2 = content2.length
      ∧ content2.length ≤ max_bytes
      ∧ (∃ suf, content2 = content ++ suf)
      ∧ j - 1 ≤ actual2 ∧ actual2 ≤ j - 1 + n
      ∧ (∀ i, j ≤ i → i ≤ actual2 →
          ∃ t, getLine lines i = some t ∧ isSegmentOf t content2) := by
  intro n
  induction n with
  | zero =>
    intro j content used content2 used2 actual2 tr hj hlen hle heq
    simp only [List.range', emitLines, Prod.mk.injEq] at heq
    obtain ⟨rfl, rfl, rfl, rfl⟩ := heq
    refine ⟨hlen, by omega, ⟨[], by simp⟩, le_refl _, le_refl _, ?_⟩
    intro i hi1 hi2
    omega
  | succ n ih =>
    intro j content used content2 used2 actual2 tr hj hlen hle heq
    rw [show List.range' j (n + 1) = j :: List.range' (j + 1) n from rfl] at heq
    cases hg : getLine lines j with
    | none =>
      simp only [emitLines, hg, Prod.mk.injEq] at heq
      obtain ⟨rfl, rfl, rfl, rfl⟩ := heq
      refine ⟨hlen, by omega, ⟨[], by simp⟩, le_refl _, by omega, ?_⟩
      intro i hi1 hi2
      omega
    | some t =>
      by_cases hmax : max_bytes < used + t.length
      · simp only [emitLines, hg, if_pos hmax, Prod.mk.injEq] at heq
        obtain ⟨rfl, rfl, rfl, rfl⟩ := heq
        refine ⟨hlen, by omega, ⟨[], by simp⟩, le_refl _, by omega, ?_⟩
        intro i hi1 hi2
        omega
      · simp only [emitLines, hg, if_neg hmax] at heq
        have hj1 : (j + 1) - 1 = j := by omega
        rw [← hj1] at heq
        have hres := ih (j + 1) (content ++ t) (used + t.length) content2 used2 actual2 tr
          (by omega) (by simp [hlen]) (by omega) heq
        obtain ⟨e1, e2, ⟨suf, e3⟩, e4, e5, e6⟩ := hres
        rw [hj1] at e4 e5
        refine ⟨e1, e2, ⟨t ++ suf, by rw [e3]; simp⟩, by omega, by omega, ?_⟩
        intro i hi1 hi2
        by_cases hij : i = j
        · subst hij
          refine ⟨t, hg, ?_⟩
          rw [e3]
          exact ⟨content, suf, by simp⟩
        · exact e6 i (by omega) hi2

theorem buildGo_spec (lines : List (List Nat)) (max_bytes : Nat) :
    ∀ (ranges : List (Nat × Nat)) (content : List Nat) (served : List (Nat × Nat))
      (used : Nat) (firstSeg trunc : Bool) (content2 : List Nat)
      (served2 : List (Nat × Nat)) (tr : Bool),
      used = content.length → used ≤ max_bytes →
      (∀ p ∈ served, SegOK lines p content) →
      buildGo lines max_bytes ranges content served used firstSeg trunc
        = (content2, served2, tr) →
      content2.length ≤ max_bytes
      ∧ (∃ suf, content2 = content ++ suf)
      ∧ (∀ p ∈ served2, p ∈ served ∨ ∃ q ∈ ranges, p.1 = q.1 ∧ p.1 ≤ p.2 ∧ p.2 ≤ q.2)
      ∧ (∀ p ∈ served2, SegOK lines p content2) := by
  intro ranges
  induction ranges with
  | nil =>
    intro content served used firstSeg trunc content2 served2 tr hlen hle hS heq
    simp only [buildGo, Prod.mk.injEq] at heq
    obtain ⟨rfl, rfl, rfl⟩ := heq
    exact ⟨by omega, ⟨[], by simp⟩, fun p hp => Or.inl hp, hS⟩
  | cons r rest ih =>
    obtain ⟨start, endL⟩ := r
    intro content served used firstSeg trunc content2 served2 tr hlen hle hS heq
    simp only [buildGo] at heq
    cases hg : getLine lines start with
    | none =>
      simp only [hg] at heq
      have hres := ih content served used firstSeg trunc content2 served2 tr hlen hle hS heq
      refine ⟨hres.1, hres.2.1, ?_, hres.2.2.2⟩
      intro p hp
      rcases hres.2.2.1 p hp with h | ⟨q, hq, hq2⟩
      · exact Or.inl h
      · exact Or.inr ⟨q, List.mem_cons_of_mem _ hq, hq2⟩
    | some firstLine =>
      simp only [hg] at heq
      have hstart1 : 1 ≤ start := by
        by_contra h
        have : start = 0 := by omega
        subst this
        simp [getLine] at hg
      set sep : Nat := if firstSeg = false ∧ endsNewline content = false then 1 else 0 with hsep
      have hsep01 : sep = 0 ∨ sep = 1 := by
        rw [hsep]
        split
        · exact Or.inr rfl
        · exact Or.inl rfl
      have hsepb : (if sep = 1 then ([10] : List Nat) else []).length = sep := by
        rcases hsep01 with h | h <;> simp [h]
      by_cases hguard : max_bytes
          < used + ((labelBytes start endL).length + firstLine.length + sep)
      · rw [if_pos hguard] at heq
        simp only [Prod.mk.injEq] at heq
        obtain ⟨rfl, rfl, rfl⟩ := heq
        exact ⟨by omega, ⟨[], by simp⟩, fun p hp => Or.inl hp, hS⟩
      · rw [if_neg hguard] at heq
        rcases hemit : emitLines lines max_bytes (rangeIdxs start endL)
            (content ++ (if sep = 1 then [10] else []) ++ labelBytes start endL)
            (used + sep + (labelBytes start endL).length) (start - 1)
          with ⟨c2, u2, a, itr⟩
        rw [hemit] at heq
        simp only at heq
        have hlen1 : used + sep + (labelBytes start endL).length
            = (content ++ (if sep = 1 then ([10] : List Nat) else [])
                ++ labelBytes start endL).length := by
          simp [hlen, hsepb]
          omega
        have hle1 : used + sep + (labelBytes start endL).length ≤ max_bytes := by omega
        have hemit' : emitLines lines max_bytes (List.range' start (endL + 1 - start))
            (content ++ (if sep = 1 then [10] else []) ++ labelBytes start endL)
            (used + sep + (labelBytes start endL).length) (start - 1)
            = (c2, u2, a, itr) := hemit
        obtain ⟨e1, e2, ⟨suf, e3⟩, e4, e5, e6⟩ :=
          emitLines_spec lines max_bytes (endL + 1 - start) start _ _ c2 u2 a itr
            hstart1 hlen1 hle1 hemit'
        have hc2 : c2 = content ++ ((if sep = 1 then ([10] : List Nat) else [])
            ++ labelBytes start endL ++ suf) := by
          rw [e3]
          simp
        have hS2 : ∀ p ∈ (if start ≤ a then served ++ [(start, a)] else served),
            SegOK lines p c2 := by
          intro p hp
          by_cases hpa : start ≤ a
          · rw [if_pos hpa, List.mem_append] at hp
            rcases hp with hp | hp
            · rw [hc2]
              exact SegOK_append_right _ (hS p hp)
            · simp only [List.mem_singleton] at hp
              subst hp
              intro i hi1 hi2
              exact e6 i hi1 hi2
          · rw [if_neg hpa] at hp
            rw [hc2]
            exact SegOK_append_right _ (hS p hp)
        have haendL : start ≤ a → a ≤ endL := by
          intro h
          omega
        by_cases hfin : a < endL
        · rw [if_pos hfin] at heq
          simp only [Prod.mk.injEq] at heq
          obtain ⟨rfl, rfl, rfl⟩ := heq
          refine ⟨e2, ⟨_, hc2⟩, ?_, hS2⟩
          intro p hp
          by_cases hpa : start ≤ a
          · rw [if_pos hpa, List.mem_append] at hp
            rcases hp with hp | hp
            · exact Or.inl hp
            · simp only [List.mem_singleton] at hp
              subst hp
              exact Or.inr ⟨(start, endL), List.mem_cons_self _ _, rfl, hpa, haendL hpa⟩
          · rw [if_neg hpa] at hp
            exact Or.inl hp
        · rw [if_neg hfin] at heq
          have hres := ih c2 (if start ≤ a then served ++ [(start, a)] else served) u2
            false (trunc || itr) content2 served2 tr e1 (by omega) hS2 heq
          obtain ⟨f1, ⟨suf2, f2⟩, f3, f4⟩ := hres
          refine ⟨f1, ?_, ?_, f4⟩
          · refine ⟨(if sep = 1 then ([10] : List Nat) else [])
              ++ labelBytes start endL ++ suf ++ suf2, ?_⟩
            rw [f2, hc2]
            simp
          · intro p hp
            rcases f3 p hp with hp2 | ⟨q, hq, hq2⟩
            · by_cases hpa : start ≤ a
              · rw [if_pos hpa, List.mem_append] at hp2
                rcases hp2 with hp2 | hp2
                · exact Or.inl hp2
                · simp only [List.mem_singleton] at hp2
                  subst hp2
                  exact Or.inr ⟨(start, endL), List.mem_cons_self _ _, rfl, hpa, haendL hpa⟩
              · rw [if_neg hpa] at hp2
                exact Or.inl hp2
            · exact Or.inr ⟨q, List.mem_cons_of_mem _ hq, hq2⟩

/-- Claim C10: `build_content` returns content whose byte length never exceeds
`max_bytes`; every served range `(s, e)` is a non-empty subrange of some
requested range `(start, end)` with `s = start` and `s ≤ e ≤ end`; and every
line of a served range exists in the file and occurs contiguously in the
returned content — the ledger only records lines actually emitted. -/
theorem C10_build_content (ranges : List (Nat × Nat)) (lines : List (List Nat))
    (max_bytes : Nat) :
    (build_content ranges lines max_bytes).1.length ≤ max_bytes
    ∧ ∀ p ∈ (build_content ranges lines max_bytes).2.1,
        (∃ q ∈ ranges, p.1 = q.1 ∧ p.1 ≤ p.2 ∧ p.2 ≤ q.2)
        ∧ SegOK lines p (build_content ranges lines max_bytes).1 := by
  rcases hb : build_content ranges lines max_bytes with ⟨content2, served2, tr⟩
  have hres := buildGo_spec lines max_bytes ranges [] [] 0 true false content2 served2 tr
    rfl (by omega) (by intro p hp; cases hp) hb
  refine ⟨hres.1, ?_⟩
  intro p hp
  refine ⟨?_, hres.2.2.2 p hp⟩
  rcases hres.2.2.1 p hp with h | h
  · cases h
  · exact h

/-- Witness for C10 at the source's own unit test input
(`build_content_honors_byte_budget`): three six-byte lines, range (1,3),
24-byte budget — lines 1-2 are served and fit, the content stays within
budget. -/
theorem C10_build_content_witness :
    (build_content [(1, 3)] [asciiStr "line1\n", asciiStr "line2\n", asciiStr "line3\n"]
      24).1.length ≤ 24
    ∧ ∃ q ∈ [(1, 3)], ((1 : Nat), (2 : Nat)).1 = q.1
        ∧ ((1 : Nat), (2 : Nat)).1 ≤ ((1 : Nat), (2 : Nat)).2
        ∧ ((1 : Nat), (2 : Nat)).2 ≤ q.2 := by
  have h := C10_build_content [(1, 3)]
    [asciiStr "line1\n", asciiStr "line2\n", asciiStr "line3\n"] 24
  exact ⟨h.1, (h.2 (1, 2) (by decide)).1⟩

end Codex
